import Mathlib

/-!
# Verification of the bencode codec (`bencoding.py`) and torrent reader (`torrent_parser.py`)

Shallow embedding of the repository's two source files:

* `bencoding.py`: `decode` (recursive-descent bencode decoder built from the
  inner functions `decodeNext`, `decodeInt`, `decodeStr`, `decodeList`,
  `decodeDict`) and `encode`.
* `torrent_parser.py`: the `TorrentFile` reader (`load`, `get_file_info`).

Bytes are modelled as `Nat` (`List Nat` for buffers / Python `bytes`).
Python exceptions are modelled by `Except` with a dedicated error kind per
`raise` site; a Python `IndexError` arising from an out-of-range `encoded[i]`
access is the distinct kind `DecodeError.indexError`.  Python slices
`encoded[a:b]` (which silently clamp) are `pySlice`.  The decoder's unbounded
mutual recursion is embedded with a fuel parameter; the top-level `decode`
supplies `3 * length + 1` fuel, which is shown sufficient on every buffer a
theorem below quantifies over (`fcost_le`).
-/

/-- `ord "i"` -/
def TOKEN_INT : Nat := 105
/-- `ord "l"` -/
def TOKEN_LIST : Nat := 108
/-- `ord "d"` -/
def TOKEN_DICT : Nat := 100
/-- `ord ":"` -/
def TOKEN_STR_SPLIT : Nat := 58
/-- `ord "e"` -/
def TOKEN_END : Nat := 101

/-- ASCII bytes of a string (all source literals are ASCII). -/
def bs (s : String) : List Nat := s.data.map Char.toNat

/-- `encoded[i]` as a safe lookup: `none` models Python's `IndexError`. -/
def byteAt : List Nat → Nat → Option Nat
  | [], _ => none
  | b :: _, 0 => some b
  | _ :: rest, i + 1 => byteAt rest i

/-- Python slice `enc[a:b]` for non-negative `a`, `b` (clamps, never fails). -/
def pySlice (enc : List Nat) (a b : Nat) : List Nat := (enc.drop a).take (b - a)

/-- Scan a suffix of the buffer for the first occurrence of `tok`;
`pos` is the absolute index of the head of `l`.  Returns the absolute index
of the first hit, or `0` when there is none — mirroring the source's
`end = 0` sentinel in `decodeInt`/`decodeStr`. -/
def scanFrom (l : List Nat) (tok : Nat) (pos : Nat) : Nat :=
  match l with
  | [] => 0
  | b :: rest => if b = tok then pos else scanFrom rest tok (pos + 1)

/-- `for i in range(index, len(encoded)): if encoded[i] == tok: ...` -/
def scanFor (enc : List Nat) (tok : Nat) (index : Nat) : Nat :=
  scanFrom (enc.drop index) tok index

/-- ASCII digit test (`chr(b) in digits`). -/
def isDigit (b : Nat) : Bool := 48 ≤ b && b ≤ 57

/-- Big-endian decimal digit accumulation: the value of an ASCII digit string. -/
def digitsToNat (s : List Nat) : Nat := s.foldl (fun acc d => acc * 10 + (d - 48)) 0

/-- Decimal ASCII digits of `n` (`str(n)` for a natural number); fuelled so the
definition is structural and kernel-computable. -/
def natStrAux : Nat → Nat → List Nat
  | 0, _ => []
  | fuel + 1, n => if n < 10 then [48 + n] else natStrAux fuel (n / 10) ++ [48 + n % 10]

/-- `str(n).encode()` for `n : Nat`. -/
def natStr (n : Nat) : List Nat := natStrAux (n + 1) n

/-- `str(n).encode()` for `n : int` (Python `str` of an integer). -/
def intStr (n : Int) : List Nat := if n < 0 then 45 :: natStr n.natAbs else natStr n.toNat

/-- Python `int(...)` on the bytes between `i`+1 and the end token.
We model the sub-language actually exercised here: an optional leading `'-'`
followed by one or more ASCII digits.  (CPython additionally accepts a
leading `'+'`, surrounding whitespace and `'_'` digit separators; no claim
below involves those forms.)  `none` models the `ValueError`. -/
def pyInt (s : List Nat) : Option Int :=
  match s with
  | [] => none
  | b :: rest =>
    if b = 45 then
      if rest ≠ [] ∧ rest.all isDigit then some (-(digitsToNat rest : Int)) else none
    else if (b :: rest).all isDigit then some (digitsToNat (b :: rest) : Int) else none

/-- Python `int(encoded[index:end].decode())` for the string-length prefix.
The first byte of the slice is already checked to be a digit by `decodeStr`;
the remaining bytes may be anything up to the `':'`, and `int` fails unless
the whole slice is numeric.  Same modelling note as `pyInt`. -/
def pyLen (s : List Nat) : Option Nat :=
  if s ≠ [] ∧ s.all isDigit then some (digitsToNat s) else none

/-- The Python value universe flowing through `decode`/`encode`:
`int | bytes | list | dict`.  A Python `dict` is an insertion-ordered
association list with unique keys (updates keep the original slot). -/
inductive Value where
  | int (n : Int)
  | str (s : List Nat)
  | list (l : List Value)
  | dict (d : List (List Nat × Value))

/-- `output[key] = value` on a Python dict: replace in place if the key is
present (keeping its position), else append. -/
def dictInsert (d : List (List Nat × Value)) (k : List Nat) (v : Value) :
    List (List Nat × Value) :=
  match d with
  | [] => [(k, v)]
  | (k', v') :: rest => if k' = k then (k, v) :: rest else (k', v') :: dictInsert rest k v

/-- `d[k]` / `k in d` on a Python dict (keys are unique, so first hit wins). -/
def dlookup (k : List Nat) : List (List Nat × Value) → Option Value
  | [] => none
  | (k', v) :: rest => if k' = k then some v else dlookup k rest

/-- Strict byte-wise lexicographic comparison — Python `bytes.__lt__`,
the order used by `sorted(original.items(), key=lambda x: x[0])`. -/
def lexLt : List Nat → List Nat → Bool
  | _, [] => false
  | [], _ :: _ => true
  | a :: as, b :: bs => if a < b then true else if b < a then false else lexLt as bs

/-- One step of the stable insertion modelling Python's
`sorted(..., key=lambda x: x[0])`: the new pair goes after every strictly
smaller-or-equal key and before the first strictly larger one, which agrees
with the stable order CPython's sort produces. -/
def insKey {α : Type} (p : List Nat × α) :
    List (List Nat × α) → List (List Nat × α)
  | [] => [p]
  | q :: rest => if lexLt q.1 p.1 then q :: insKey p rest else p :: q :: rest

/-- `sorted(pairs, key=lambda x: x[0])`. -/
def sortPairs {α : Type} : List (List Nat × α) → List (List Nat × α)
  | [] => []
  | p :: rest => insKey p (sortPairs rest)

/-- `str(len(original)).encode() + b":" + original` — the `bytes` branch of
`encode`. -/
def encStr (s : List Nat) : List Nat := natStr s.length ++ TOKEN_STR_SPLIT :: s

mutual
/-- `encode` from `bencoding.py` (the four `isinstance` branches; the final
`TypeError` branch is unreachable in the typed model, see `Value`). -/
def encode : Value → List Nat
  | .str s => encStr s
  | .int n => TOKEN_INT :: intStr n ++ [TOKEN_END]
  | .list l => TOKEN_LIST :: encodeItems l ++ [TOKEN_END]
  | .dict d => TOKEN_DICT :: ((sortPairs (encodePairs d)).map Prod.snd).flatten ++ [TOKEN_END]

/-- `b''.join(encode(obj) for obj in original)` -/
def encodeItems : List Value → List Nat
  | [] => []
  | v :: rest => encode v ++ encodeItems rest

/-- The generator `(key, encode(key) + encode(value))` over the dict's items,
in insertion order, before sorting by key. -/
def encodePairs : List (List Nat × Value) → List (List Nat × List Nat)
  | [] => []
  | (k, v) :: rest => (k, encStr k ++ encode v) :: encodePairs rest
end

example : encode (.int 42) = bs "i42e" := by decide
example : encode (.int (-7)) = bs "i-7e" := by decide
example : encode (.str (bs "spam")) = bs "4:spam" := by decide
example : encode (.list [.str (bs "a"), .int 0]) = bs "l1:ai0ee" := by decide
example : encode (.dict [(bs "b", .int 1), (bs "a", .int 2)]) = bs "d1:ai2e1:bi1ee" := by
  decide

/-- One error kind per `raise` site (plus Python's `IndexError` and the
fuel artifact, which no theorem's buffer ever reaches). -/
inductive DecodeError where
  /-- `Exception(f"Wrong token at {index}, ...")` in `decodeInt`, and the
  `ValueError` of the same wording in `decodeList`. -/
  | wrongToken
  /-- `ValueError(f"No end token (101) found")` in `decodeInt`. -/
  | noEndToken
  /-- `ValueError(f"Leading zero in number ...")` in `decodeInt`. -/
  | leadingZero
  /-- `ValueError("Negative zero not valid bencode")` in `decodeInt`. -/
  | negativeZero
  /-- `ValueError` raised by `int(number)` on a non-numeric body. -/
  | intParseError
  /-- `ValueError("Attempting to parse as a string but no digits ...")`. -/
  | notDigit
  /-- `ValueError(f"No end token (58) found")` in `decodeStr`. -/
  | noColon
  /-- `ValueError`/`UnicodeDecodeError` from `int(encoded[index:end].decode())`. -/
  | lengthParseError
  /-- `ValueError(f"Missing end token 101")` in `decodeList`/`decodeDict`. -/
  | missingEnd
  /-- `ValueError("Trailing data after valid bencode")` at top level. -/
  | trailingData
  /-- Python `IndexError` from an out-of-range `encoded[i]` access. -/
  | indexError
  /-- artifact of the fuelled embedding; unreachable at `decode`'s fuel. -/
  | outOfFuel
deriving DecidableEq

/-- `decodeInt` (lines 23–46): scan forward for the first `e`, check the
canonical-integer rules, parse with `int`. -/
def decodeInt (enc : List Nat) (index : Nat) : Except DecodeError (Int × Nat) :=
  match byteAt enc index with
  | none => .error .indexError
  | some b =>
    if b ≠ TOKEN_INT then .error .wrongToken
    else
      let e := scanFor enc TOKEN_END index
      if e = 0 then .error .noEndToken
      else
        let number := pySlice enc (index + 1) e
        if number.head? = some 48 ∧ 1 < number.length then .error .leadingZero
        else if number = [45, 48] then .error .negativeZero
        else
          match pyInt number with
          | none => .error .intParseError
          | some n => .ok (n, e + 1)

/-- `decodeStr` (lines 48–66): first byte must be a digit, scan forward for
the `:`; the payload slice `encoded[end+1:end+length+1]` clamps silently
(so a declared length past the buffer end yields a short string and an
out-of-buffer next index, never an error here). -/
def decodeStr (enc : List Nat) (index : Nat) : Except DecodeError (List Nat × Nat) :=
  match byteAt enc index with
  | none => .error .indexError
  | some b =>
    if ¬ isDigit b then .error .notDigit
    else
      let e := scanFor enc TOKEN_STR_SPLIT index
      if e = 0 then .error .noColon
      else
        match pyLen (pySlice enc index e) with
        | none => .error .lengthParseError
        | some length => .ok (pySlice enc (e + 1) (e + length + 1), e + length + 1)

mutual
/-- `decodeNext` (lines 13–21): dispatch on the byte at the cursor. -/
def decodeNext (enc : List Nat) : Nat → Nat → Except DecodeError (Value × Nat)
  | 0, _ => .error .outOfFuel
  | fuel + 1, index =>
    match byteAt enc index with
    | none => .error .indexError
    | some b =>
      if b = TOKEN_INT then
        match decodeInt enc index with
        | .error e => .error e
        | .ok (n, next) => .ok (.int n, next)
      else if b = TOKEN_LIST then decodeList enc fuel index
      else if b = TOKEN_DICT then decodeDict enc fuel index
      else
        match decodeStr enc index with
        | .error e => .error e
        | .ok (s, next) => .ok (.str s, next)
termination_by structural fuel _ => fuel

/-- `decodeList` (lines 68–82): token check, then the `while` loop
(`listLoop`). -/
def decodeList (enc : List Nat) : Nat → Nat → Except DecodeError (Value × Nat)
  | 0, _ => .error .outOfFuel
  | fuel + 1, index =>
    match byteAt enc index with
    | none => .error .indexError
    | some b =>
      if b = TOKEN_LIST then listLoop enc fuel (index + 1) []
      else .error .wrongToken
termination_by structural fuel _ => fuel

/-- `decodeDict` (lines 84–97): no token check in the source; straight into
the `while` loop (`dictLoop`). -/
def decodeDict (enc : List Nat) : Nat → Nat → Except DecodeError (Value × Nat)
  | 0, _ => .error .outOfFuel
  | fuel + 1, index => dictLoop enc fuel (index + 1) []
termination_by structural fuel _ => fuel

/-- The body of `decodeList`'s `while encoded[current_index] != TOKEN_END`
loop: decode an element, append it, and raise `Missing end token` when the
new cursor has reached or passed the end of the buffer. -/
def listLoop (enc : List Nat) : Nat → Nat → List Value → Except DecodeError (Value × Nat)
  | 0, _, _ => .error .outOfFuel
  | fuel + 1, ci, acc =>
    match byteAt enc ci with
    | none => .error .indexError
    | some b =>
      if b = TOKEN_END then .ok (.list acc, ci + 1)
      else
        match decodeNext enc fuel ci with
        | .error e => .error e
        | .ok (v, ci2) =>
          if enc.length ≤ ci2 then .error .missingEnd
          else listLoop enc fuel ci2 (acc ++ [v])
termination_by structural fuel _ _ => fuel

/-- The body of `decodeDict`'s loop: key via `decodeStr`, value via
`decodeNext`, the same end-of-buffer check, then `output[key] = value`. -/
def dictLoop (enc : List Nat) :
    Nat → Nat → List (List Nat × Value) → Except DecodeError (Value × Nat)
  | 0, _, _ => .error .outOfFuel
  | fuel + 1, ci, acc =>
    match byteAt enc ci with
    | none => .error .indexError
    | some b =>
      if b = TOKEN_END then .ok (.dict acc, ci + 1)
      else
        match decodeStr enc ci with
        | .error e => .error e
        | .ok (key, ci1) =>
          match decodeNext enc fuel ci1 with
          | .error e => .error e
          | .ok (v, ci2) =>
            if enc.length ≤ ci2 then .error .missingEnd
            else dictLoop enc fuel ci2 (dictInsert acc key v)
termination_by structural fuel _ _ => fuel
end

/-- `decode` (lines 10–104): run `decodeNext` from offset 0 and require the
final offset to equal the buffer length.  The fuel `3 * length + 1`
dominates every run the theorems below quantify over (`fcost_le`). -/
def decode (enc : List Nat) : Except DecodeError Value :=
  match decodeNext enc (3 * enc.length + 1) 0 with
  | .error e => .error e
  | .ok (v, final) => if final = enc.length then .ok v else .error .trailingData

example : decode (bs "i42e") = .ok (.int 42) := by rfl
example : decode (bs "i0e") = .ok (.int 0) := by rfl
example : decode (bs "i-7e") = .ok (.int (-7)) := by rfl
example : decode (bs "4:spam") = .ok (.str (bs "spam")) := by rfl
example : decode (bs "le") = .ok (.list []) := by rfl
example : decode (bs "de") = .ok (.dict []) := by rfl
example : decode (bs "d3:bar4:spam3:fooi42e4:listl3:one3:two5:threeee") =
    .ok (.dict [(bs "bar", .str (bs "spam")), (bs "foo", .int 42),
      (bs "list", .list [.str (bs "one"), .str (bs "two"), .str (bs "three")])]) := by rfl
example : decode (bs "i03e") = .error .leadingZero := by rfl
example : decode (bs "i-0e") = .error .negativeZero := by rfl
example : decode (bs "10:hello") = .error .trailingData := by rfl
example : decode (bs "l") = .error .indexError := by rfl
example : decode (bs "d3:fooi1e") = .error .missingEnd := by rfl
example : decode (bs "i1ex") = .error .trailingData := by rfl
example : decode (bs "05:hello") = .ok (.str (bs "hello")) := by rfl
example : decode (bs "d1:ai1e1:ai2ee") = .ok (.dict [(bs "a", .int 2)]) := by rfl

/-- Key-membership in a list of keys, as a boolean. -/
def memKey (k : List Nat) : List (List Nat) → Bool
  | [] => false
  | k' :: rest => if k' = k then true else memKey k rest

/-- All keys distinct — the invariant every genuine Python dict satisfies. -/
def nodupKeys : List (List Nat) → Bool
  | [] => true
  | k :: rest => !memKey k rest && nodupKeys rest

mutual
/-- Well-formed `Value` trees: every dict level has distinct keys.  This is
exactly the class of trees constructible as Python `int`/`bytes`/`list`/`dict`
data (a Python dict cannot hold a key twice). -/
def wfV : Value → Bool
  | .int _ => true
  | .str _ => true
  | .list l => wfItems l
  | .dict d => nodupKeys (d.map Prod.fst) && wfPairs d

def wfItems : List Value → Bool
  | [] => true
  | v :: rest => wfV v && wfItems rest

def wfPairs : List (List Nat × Value) → Bool
  | [] => true
  | p :: rest => wfV p.2 && wfPairs rest
end

/-- Keys in strictly ascending byte-wise order. -/
def strictSortedKeys : List (List Nat) → Bool
  | [] => true
  | [_] => true
  | a :: b :: rest => lexLt a b && strictSortedKeys (b :: rest)

mutual
/-- Canonical `Value` trees: every dict level is stored with its keys in
strictly ascending byte-wise order (so `encode` does not need to reorder). -/
def canonicalV : Value → Bool
  | .int _ => true
  | .str _ => true
  | .list l => canonicalItems l
  | .dict d => strictSortedKeys (d.map Prod.fst) && canonicalPairs d

def canonicalItems : List Value → Bool
  | [] => true
  | v :: rest => canonicalV v && canonicalItems rest

def canonicalPairs : List (List Nat × Value) → Bool
  | [] => true
  | p :: rest => canonicalV p.2 && canonicalPairs rest
end

mutual
/-- The shape `decode (encode v)` actually returns: identical to `v` except
that every dict level comes back in the sorted order `encode` emitted it in. -/
def canon : Value → Value
  | .int n => .int n
  | .str s => .str s
  | .list l => .list (canonItems l)
  | .dict d => .dict (sortPairs (canonPairs d))

def canonItems : List Value → List Value
  | [] => []
  | v :: rest => canon v :: canonItems rest

def canonPairs : List (List Nat × Value) → List (List Nat × Value)
  | [] => []
  | (k, v) :: rest => (k, canon v) :: canonPairs rest
end

mutual
/-- Fuel needed by `decodeNext` to decode `encode v` (an upper bound). -/
def fcost : Value → Nat
  | .int _ => 1
  | .str _ => 1
  | .list l => 2 + costItems l
  | .dict d => 2 + costPairs d

def costItems : List Value → Nat
  | [] => 1
  | v :: rest => 1 + fcost v + costItems rest

def costPairs : List (List Nat × Value) → Nat
  | [] => 1
  | p :: rest => 1 + fcost p.2 + costPairs rest
end

mutual
/-- Structural size, for strong induction over `Value` trees. -/
def vsize : Value → Nat
  | .int _ => 1
  | .str _ => 1
  | .list l => 1 + isize l
  | .dict d => 1 + psize d

def isize : List Value → Nat
  | [] => 0
  | v :: rest => 1 + vsize v + isize rest

def psize : List (List Nat × Value) → Nat
  | [] => 0
  | p :: rest => 1 + vsize p.2 + psize rest
end

/-- Structural equality of `Value` trees with dicts compared extensionally,
as key-to-value mappings, irrespective of entry order. -/
inductive VEquiv : Value → Value → Prop where
  | int (n : Int) : VEquiv (.int n) (.int n)
  | str (s : List Nat) : VEquiv (.str s) (.str s)
  | list {l₁ l₂ : List Value} (h : List.Forall₂ VEquiv l₁ l₂) :
      VEquiv (.list l₁) (.list l₂)
  | dict {d₁ d₂ : List (List Nat × Value)}
      (hdom : ∀ k, (dlookup k d₁).isSome = (dlookup k d₂).isSome)
      (hval : ∀ k v₁ v₂, dlookup k d₁ = some v₁ → dlookup k d₂ = some v₂ → VEquiv v₁ v₂) :
      VEquiv (.dict d₁) (.dict d₂)

/- ------------------------------------------------------------------
`torrent_parser.py` (the reader layer).  `open`/`read` and the SHA1 call are
I/O and an external library; the reader's own logic — shape validation and
field lookup — is embedded below.  `self.info`, once `load` has succeeded,
is always a decoded dict, so `get_file_info`'s dict-shape test is encoded by
the argument type.
------------------------------------------------------------------ -/

/-- One error kind per `raise` site of `TorrentFile`. -/
inductive TorrentError where
  /-- `TypeError(".torrent file is not a dictionary")` in `load`. -/
  | notADict
  /-- `ValueError(".torrent file does not have an info dictionary")`. -/
  | noInfoKey
  /-- `TypeError("info not a dictionary")` in `load`/`compute_info_hash`. -/
  | infoNotADict
  /-- `ValueError("Not all required keys in info dictionary")`. -/
  | missingRequiredFields
  /-- `ValueError("No announce URL in self.data")`. -/
  | noAnnounce
  /-- a `bencoding.decode` failure propagating out of `load`. -/
  | decodeFailed (e : DecodeError)
deriving DecidableEq

/-- `TorrentFile.load` (lines 17–33), given the file's bytes: decode, require
a dict, require the key `b"info"`, require its value to be a dict; returns
the info dict (`self.info`).  The subsequent `compute_info_hash` simply runs
`bencoding.encode` on this dict and feeds it to SHA1, so the bytes being
hashed are `encode (.dict info)`. -/
def TorrentFile.load (fileBytes : List Nat) :
    Except TorrentError (List (List Nat × Value)) :=
  match decode fileBytes with
  | .error e => .error (.decodeFailed e)
  | .ok data =>
    match data with
    | .dict d =>
      match dlookup (bs "info") d with
      | none => .error .noInfoKey
      | some (.dict info) => .ok info
      | some _ => .error .infoNotADict
    | _ => .error .notADict

/-- The four fields surfaced by `get_file_info`. -/
structure FileInfo where
  name : Value
  length : Value
  pieceLength : Value
  pieces : Value

/-- `TorrentFile.get_file_info` (lines 56–69), with `self.info` a dict (the
`isinstance` guard is the argument type): if all of `b"name"`, `b"length"`,
`b"piece length"`, `b"pieces"` are present, return those four lookups, else
raise `Not all required keys in info dictionary`. -/
def TorrentFile.get_file_info (info : List (List Nat × Value)) :
    Except TorrentError FileInfo :=
  match dlookup (bs "name") info, dlookup (bs "length") info,
        dlookup (bs "piece length") info, dlookup (bs "pieces") info with
  | some n, some l, some pl, some p => .ok ⟨n, l, pl, p⟩
  | _, _, _, _ => .error .missingRequiredFields

/-- Keys in weakly ascending order, phrased the way the insertion produces
them: no later key is strictly below an earlier one. -/
def SortedKeys {α : Type} (l : List (List Nat × α)) : Prop :=
  l.Pairwise (fun p q => lexLt q.1 p.1 = false)

/-- Keys in strictly ascending order, as a `Pairwise` statement. -/
def StrictSortedKeys {α : Type} (l : List (List Nat × α)) : Prop :=
  l.Pairwise (fun p q => lexLt p.1 q.1 = true)

/-- The bytes a decoded dict walks over: the concatenated
`encode(key) + encode(value)` pairs, in the order they appear. -/
def pairsBytes : List (List Nat × Value) → List Nat
  | [] => []
  | (k, v) :: rest => encStr k ++ (encode v ++ pairsBytes rest)

/-- A well-formed canonical bencoded buffer, per the spec's glossary: "the
unique encoded byte sequence for a given value tree, with map keys in
ascending byte-wise order and integers in minimal decimal form" — i.e. the
encoding of a value tree whose dict levels are already strictly sorted
(`canonicalV`); `encode` emits minimal decimal forms by construction. -/
def CanonicalBuffer (b : List Nat) : Prop :=
  ∃ v, canonicalV v = true ∧ encode v = b

/- ------------------------------------------------------------------
Basic lemmas: byte access, slices, scanning, decimal strings.
------------------------------------------------------------------ -/

theorem byteAt_append_right (pre rest : List Nat) (k : Nat) :
    byteAt (pre ++ rest) (pre.length + k) = byteAt rest k := by
  induction pre with
  | nil => simp
  | cons b pre ih =>
    simpa [byteAt, Nat.succ_add] using ih

theorem byteAt_append_head (pre : List Nat) (b : Nat) (rest : List Nat) :
    byteAt (pre ++ b :: rest) pre.length = some b := by
  simpa using byteAt_append_right pre (b :: rest) 0

theorem byteAt_eq_none (l : List Nat) (i : Nat) :
    byteAt l i = none ↔ l.length ≤ i := by
  induction l generalizing i with
  | nil => simp [byteAt]
  | cons b rest ih =>
    cases i with
    | zero => simp [byteAt]
    | succ i => simpa [byteAt, Nat.succ_le_succ_iff] using ih i

theorem drop_append_length (pre t : List Nat) : (pre ++ t).drop pre.length = t := by
  simp

theorem pySlice_extract (pre mid rest : List Nat) :
    pySlice (pre ++ mid ++ rest) pre.length (pre.length + mid.length) = mid := by
  simp [pySlice, List.drop_append, List.take_left]

theorem pySlice_tail (pre tail : List Nat) (n : Nat) :
    pySlice (pre ++ tail) pre.length (pre.length + n) = tail.take n := by
  simp [pySlice]

theorem scanFrom_of_clean (tok : Nat) (xs ys : List Nat) (pos : Nat)
    (hclean : ∀ b ∈ xs, b ≠ tok) :
    scanFrom (xs ++ tok :: ys) tok pos = pos + xs.length := by
  induction xs generalizing pos with
  | nil => simp [scanFrom]
  | cons b xs ih =>
    have hb : b ≠ tok := hclean b (by simp)
    have hx : ∀ b ∈ xs, b ≠ tok := fun c hc => hclean c (by simp [hc])
    simp only [List.cons_append, scanFrom, if_neg hb, List.append_eq]
    rw [ih (pos + 1) hx]
    simp only [List.length_cons]
    omega

theorem scanFor_of_clean (tok : Nat) (pre xs ys : List Nat)
    (hclean : ∀ b ∈ xs, b ≠ tok) :
    scanFor (pre ++ xs ++ tok :: ys) tok pre.length = pre.length + xs.length := by
  have h : (pre ++ xs ++ tok :: ys).drop pre.length = xs ++ tok :: ys := by
    simpa using drop_append_length pre (xs ++ tok :: ys)
  simp [scanFor, h, scanFrom_of_clean tok xs ys pre.length hclean]

theorem isDigit_iff (b : Nat) : isDigit b = true ↔ 48 ≤ b ∧ b ≤ 57 := by
  simp [isDigit]

theorem natStrAux_congr : ∀ f₁ f₂ n, n < f₁ → n < f₂ → natStrAux f₁ n = natStrAux f₂ n := by
  intro f₁
  induction f₁ with
  | zero => intro f₂ n h; omega
  | succ f₁ ih =>
    intro f₂ n h₁ h₂
    cases f₂ with
    | zero => omega
    | succ f₂ =>
      by_cases hn : n < 10
      · simp [natStrAux, hn]
      · have hd : n / 10 < n := Nat.div_lt_self (by omega) (by omega)
        simp only [natStrAux, if_neg hn]
        rw [ih f₂ (n / 10) (by omega) (by omega)]

theorem natStrAux_succ (fuel n : Nat) :
    natStrAux (fuel + 1) n = if n < 10 then [48 + n] else natStrAux fuel (n / 10) ++ [48 + n % 10] :=
  rfl

theorem natStr_unfold (n : Nat) :
    natStr n = if n < 10 then [48 + n] else natStr (n / 10) ++ [48 + n % 10] := by
  by_cases hn : n < 10
  · rw [natStr, natStrAux_succ, if_pos hn, if_pos hn]
  · have hd : n / 10 < n := Nat.div_lt_self (by omega) (by omega)
    rw [natStr, natStrAux_succ, if_neg hn, if_neg hn, natStr,
      natStrAux_congr n (n / 10 + 1) (n / 10) (by omega) (by omega)]

theorem natStr_all_digits (n : Nat) : ∀ b ∈ natStr n, isDigit b = true := by
  induction n using Nat.strong_induction_on with
  | _ n ih =>
    rw [natStr_unfold]
    by_cases hn : n < 10
    · simp only [if_pos hn, List.mem_singleton]
      rintro b rfl
      rw [isDigit_iff]; omega
    · have hd : n / 10 < n := Nat.div_lt_self (by omega) (by omega)
      simp only [if_neg hn, List.mem_append, List.mem_singleton]
      rintro b (hb | rfl)
      · exact ih (n / 10) hd b hb
      · rw [isDigit_iff]
        have := Nat.mod_lt n (show 0 < 10 by omega)
        omega

theorem natStr_ne_nil (n : Nat) : natStr n ≠ [] := by
  rw [natStr_unfold]
  by_cases hn : n < 10 <;> simp [hn]

theorem natStr_length_pos (n : Nat) : 0 < (natStr n).length := by
  cases h : natStr n with
  | nil => exact absurd h (natStr_ne_nil n)
  | cons b t => simp

theorem natStr_lt_ten (n : Nat) (h : n < 10) : natStr n = [48 + n] := by
  rw [natStr_unfold, if_pos h]

theorem natStr_head_ne_zero (n : Nat) (h : 10 ≤ n) : (natStr n).head? ≠ some 48 := by
  induction n using Nat.strong_induction_on with
  | _ n ih =>
    rw [natStr_unfold, if_neg (by omega)]
    have hd : n / 10 < n := Nat.div_lt_self (by omega) (by omega)
    by_cases h10 : 10 ≤ n / 10
    · rw [List.head?_append_of_ne_nil _ (natStr_ne_nil _)]
      exact ih (n / 10) hd h10
    · have hq : 1 ≤ n / 10 := by omega
      rw [natStr_lt_ten (n / 10) (by omega)]
      simp only [List.cons_append, List.head?_cons, ne_eq, Option.some.injEq]
      omega

theorem natStr_no_leading_zero (n : Nat) :
    ¬((natStr n).head? = some 48 ∧ 1 < (natStr n).length) := by
  by_cases hn : n < 10
  · rw [natStr_lt_ten n hn]
    simp
  · rintro ⟨h, -⟩
    exact natStr_head_ne_zero n (by omega) h

theorem digitsToNat_append (s : List Nat) (d : Nat) :
    digitsToNat (s ++ [d]) = 10 * digitsToNat s + (d - 48) := by
  simp only [digitsToNat, List.foldl_append, List.foldl_cons, List.foldl_nil]
  omega

theorem digitsToNat_natStr (n : Nat) : digitsToNat (natStr n) = n := by
  induction n using Nat.strong_induction_on with
  | _ n ih =>
    rw [natStr_unfold]
    by_cases hn : n < 10
    · simp [if_pos hn, digitsToNat]
    · have hd : n / 10 < n := Nat.div_lt_self (by omega) (by omega)
      rw [if_neg hn, digitsToNat_append, ih (n / 10) hd]
      have := Nat.div_add_mod n 10
      have := Nat.mod_lt n (show 0 < 10 by omega)
      omega

theorem pyLen_natStr (n : Nat) : pyLen (natStr n) = some n := by
  rw [pyLen, if_pos ⟨natStr_ne_nil n, by
    rw [List.all_eq_true]; exact natStr_all_digits n⟩, digitsToNat_natStr]

theorem digit_ne_colon {b : Nat} (h : isDigit b = true) : b ≠ TOKEN_STR_SPLIT := by
  rw [isDigit_iff] at h; rw [TOKEN_STR_SPLIT]; omega

theorem digit_ne_end {b : Nat} (h : isDigit b = true) : b ≠ TOKEN_END := by
  rw [isDigit_iff] at h; rw [TOKEN_END]; omega

theorem digit_ne_int {b : Nat} (h : isDigit b = true) : b ≠ TOKEN_INT := by
  rw [isDigit_iff] at h; rw [TOKEN_INT]; omega

theorem digit_ne_list {b : Nat} (h : isDigit b = true) : b ≠ TOKEN_LIST := by
  rw [isDigit_iff] at h; rw [TOKEN_LIST]; omega

theorem digit_ne_dict {b : Nat} (h : isDigit b = true) : b ≠ TOKEN_DICT := by
  rw [isDigit_iff] at h; rw [TOKEN_DICT]; omega

theorem encStr_length (s : List Nat) :
    (encStr s).length = (natStr s.length).length + 1 + s.length := by
  simp [encStr]; omega

theorem natStr_head_digit (n : Nat) {b : Nat} {t : List Nat} (h : natStr n = b :: t) :
    isDigit b = true :=
  natStr_all_digits n b (by rw [h]; simp)

theorem natStr_cons (n : Nat) : ∃ b t, natStr n = b :: t := by
  cases h : natStr n with
  | nil => exact absurd h (natStr_ne_nil n)
  | cons b t => exact ⟨b, t, rfl⟩

theorem decodeStr_enc (s pre post : List Nat) :
    decodeStr (pre ++ encStr s ++ post) pre.length
      = .ok (s, pre.length + (encStr s).length) := by
  obtain ⟨b, t, hbt⟩ := natStr_cons s.length
  have hdig : isDigit b = true := natStr_head_digit _ hbt
  have hb1 : byteAt (pre ++ encStr s ++ post) pre.length = some b := by
    rw [encStr, hbt]
    simp only [List.append_assoc, List.cons_append]
    exact byteAt_append_head _ _ _
  have hscan : scanFor (pre ++ encStr s ++ post) TOKEN_STR_SPLIT pre.length
      = pre.length + (natStr s.length).length := by
    have h := scanFor_of_clean TOKEN_STR_SPLIT pre (natStr s.length) (s ++ post)
      (fun c hc => digit_ne_colon (natStr_all_digits s.length c hc))
    simpa [encStr, List.append_assoc] using h
  have hslice : pySlice (pre ++ encStr s ++ post) pre.length
      (pre.length + (natStr s.length).length) = natStr s.length := by
    have h := pySlice_extract pre (natStr s.length) (TOKEN_STR_SPLIT :: (s ++ post))
    simpa [encStr, List.append_assoc] using h
  have hpayload : pySlice (pre ++ encStr s ++ post)
      (pre.length + (natStr s.length).length + 1)
      (pre.length + (natStr s.length).length + s.length + 1) = s := by
    have h := pySlice_extract (pre ++ natStr s.length ++ [TOKEN_STR_SPLIT]) s post
    simp only [List.append_assoc, List.length_append, List.length_cons,
      List.length_nil, List.cons_append, List.nil_append] at h ⊢
    have hshape : pre ++ (natStr s.length ++ (TOKEN_STR_SPLIT :: (s ++ post)))
        = pre ++ (encStr s ++ post) := by
      simp [encStr]
    rw [← hshape]
    convert h using 2 <;> omega
  rw [decodeStr, hb1]
  simp only [hdig, not_true_eq_false, if_false, hscan, hslice, pyLen_natStr,
    digitsToNat_natStr]
  have hne : ¬(pre.length + (natStr s.length).length = 0) := by
    have := natStr_length_pos s.length
    omega
  rw [if_neg hne]
  rw [hpayload, encStr_length]
  congr 2
  omega

theorem intStr_clean (n : Int) : ∀ b ∈ intStr n, b ≠ TOKEN_END := by
  intro b hb
  rw [intStr] at hb
  by_cases hn : n < 0
  · rw [if_pos hn] at hb
    rcases List.mem_cons.1 hb with rfl | hb
    · rw [TOKEN_END]; omega
    · exact digit_ne_end (natStr_all_digits _ b hb)
  · rw [if_neg hn] at hb
    exact digit_ne_end (natStr_all_digits _ b hb)

theorem intStr_no_leading_zero (n : Int) :
    ¬((intStr n).head? = some 48 ∧ 1 < (intStr n).length) := by
  rw [intStr]
  by_cases hn : n < 0
  · rw [if_pos hn]
    rintro ⟨h, -⟩
    simp at h
  · rw [if_neg hn]
    exact natStr_no_leading_zero _

theorem natStr_eq_single_zero {m : Nat} (h : natStr m = [48]) : m = 0 := by
  have hm := digitsToNat_natStr m
  rw [h] at hm
  simpa [digitsToNat] using hm.symm

theorem intStr_ne_neg_zero (n : Int) : intStr n ≠ [45, 48] := by
  rw [intStr]
  by_cases hn : n < 0
  · rw [if_pos hn]
    intro h
    have h' : natStr n.natAbs = [48] := by
      injection h with h₁ h₂
    have := natStr_eq_single_zero h'
    omega
  · rw [if_neg hn]
    intro h
    have := natStr_all_digits n.toNat 45 (by rw [h]; simp)
    rw [isDigit_iff] at this
    omega

theorem pyInt_intStr (n : Int) : pyInt (intStr n) = some n := by
  rw [intStr]
  by_cases hn : n < 0
  · rw [if_pos hn]
    have hne : natStr n.natAbs ≠ [] := natStr_ne_nil _
    have hall : (natStr n.natAbs).all isDigit = true := by
      rw [List.all_eq_true]; exact natStr_all_digits _
    simp only [pyInt]
    rw [if_pos trivial, if_pos ⟨hne, hall⟩, digitsToNat_natStr]
    congr 1
    omega
  · obtain ⟨b, t, hbt⟩ := natStr_cons n.toNat
    rw [if_neg hn, hbt]
    have hdig := natStr_head_digit _ hbt
    have hb45 : ¬(b = 45) := by rw [isDigit_iff] at hdig; omega
    have hall : (b :: t).all isDigit = true := by
      rw [← hbt, List.all_eq_true]; exact natStr_all_digits _
    simp only [pyInt]
    rw [if_neg hb45, if_pos hall, ← hbt, digitsToNat_natStr]
    congr 1
    omega

theorem decodeInt_enc (n : Int) (pre post : List Nat) :
    decodeInt (pre ++ (TOKEN_INT :: intStr n ++ [TOKEN_END]) ++ post) pre.length
      = .ok (n, pre.length + (intStr n).length + 2) := by
  have hb1 : byteAt (pre ++ (TOKEN_INT :: intStr n ++ [TOKEN_END]) ++ post) pre.length
      = some TOKEN_INT := by
    simp only [List.append_assoc, List.cons_append]
    exact byteAt_append_head _ _ _
  have hscan : scanFor (pre ++ (TOKEN_INT :: intStr n ++ [TOKEN_END]) ++ post) TOKEN_END
      pre.length = pre.length + (intStr n).length + 1 := by
    have hclean : ∀ b ∈ TOKEN_INT :: intStr n, b ≠ TOKEN_END := by
      intro b hb
      rcases List.mem_cons.1 hb with rfl | hb
      · rw [TOKEN_INT, TOKEN_END]; omega
      · exact intStr_clean n b hb
    have h := scanFor_of_clean TOKEN_END pre (TOKEN_INT :: intStr n) post hclean
    simp only [List.append_assoc, List.cons_append, List.nil_append,
      List.length_cons] at h ⊢
    rw [h]
    omega
  have hslice : pySlice (pre ++ (TOKEN_INT :: intStr n ++ [TOKEN_END]) ++ post)
      (pre.length + 1) (pre.length + (intStr n).length + 1) = intStr n := by
    have h := pySlice_extract (pre ++ [TOKEN_INT]) (intStr n) (TOKEN_END :: post)
    simp only [List.append_assoc, List.cons_append, List.nil_append,
      List.length_append, List.length_cons, List.length_nil] at h ⊢
    convert h using 2 <;> omega
  simp only [decodeInt, hb1]
  rw [if_neg (show ¬(TOKEN_INT ≠ TOKEN_INT) from fun h => h rfl)]
  rw [hscan]
  rw [if_neg (by omega)]
  rw [hslice]
  rw [if_neg (intStr_no_leading_zero n), if_neg (intStr_ne_neg_zero n), pyInt_intStr]

/- ------------------------------------------------------------------
The byte-wise lexicographic order and the stable sort.
------------------------------------------------------------------ -/

theorem lexLt_irrefl (a : List Nat) : lexLt a a = false := by
  induction a with
  | nil => rfl
  | cons x xs ih => simp [lexLt, ih]

theorem lexLt_asymm : ∀ a b : List Nat, lexLt a b = true → lexLt b a = false := by
  intro a
  induction a with
  | nil =>
    intro b h
    cases b with
    | nil => simpa [lexLt] using h
    | cons y ys => rfl
  | cons x xs ih =>
    intro b h
    cases b with
    | nil => simp [lexLt] at h
    | cons y ys =>
      simp only [lexLt] at h ⊢
      by_cases h1 : x < y
      · simp [h1, show ¬ y < x by omega]
      · by_cases h2 : y < x
        · simp [h1, h2] at h
        · simp only [h1, h2, if_false] at h
          simp [h1, h2, ih ys h]

theorem lexLt_trans : ∀ a b c : List Nat,
    lexLt a b = true → lexLt b c = true → lexLt a c = true := by
  intro a
  induction a with
  | nil =>
    intro b c hab hbc
    cases c with
    | nil => cases b <;> simp [lexLt] at hbc
    | cons z zs => simp [lexLt]
  | cons x xs ih =>
    intro b c hab hbc
    cases b with
    | nil => simp [lexLt] at hab
    | cons y ys =>
      cases c with
      | nil => simp [lexLt] at hbc
      | cons z zs =>
        simp only [lexLt] at hab hbc ⊢
        by_cases h1 : x < y
        · by_cases h3 : y < z
          · simp [show x < z by omega]
          · by_cases h4 : z < y
            · simp [h3, h4] at hbc
            · have : y = z := by omega
              subst this
              simp [h1]
        · by_cases h2 : y < x
          · simp [h1, h2] at hab
          · have hxy : x = y := by omega
            subst hxy
            simp only [h1, lt_irrefl, if_false] at hab
            by_cases h3 : x < z
            · simp [h3]
            · by_cases h4 : z < x
              · simp [h3, h4] at hbc
              · have : x = z := by omega
                subst this
                simp only [lt_irrefl, if_false] at hbc ⊢
                exact ih ys zs hab hbc

theorem lexLt_connex : ∀ a b : List Nat,
    lexLt a b = false → lexLt b a = false → a = b := by
  intro a
  induction a with
  | nil =>
    intro b h1 h2
    cases b with
    | nil => rfl
    | cons y ys => simp [lexLt] at h1
  | cons x xs ih =>
    intro b h1 h2
    cases b with
    | nil => simp [lexLt] at h2
    | cons y ys =>
      simp only [lexLt] at h1 h2
      by_cases hxy : x < y
      · simp [hxy] at h1
      · by_cases hyx : y < x
        · simp [hyx] at h2
        · have hx : x = y := by omega
          subst hx
          simp only [lt_irrefl, if_false] at h1 h2
          rw [ih ys h1 h2]

theorem insKey_perm {α : Type} (p : List Nat × α) (l : List (List Nat × α)) :
    (insKey p l).Perm (p :: l) := by
  induction l with
  | nil => exact List.Perm.refl _
  | cons q rest ih =>
    rw [insKey]
    by_cases h : lexLt q.1 p.1
    · rw [if_pos h]
      exact ((ih.cons q).trans (List.Perm.swap p q rest)).symm.symm
    · rw [if_neg h]

theorem sortPairs_perm {α : Type} (l : List (List Nat × α)) :
    (sortPairs l).Perm l := by
  induction l with
  | nil => exact List.Perm.refl _
  | cons p rest ih =>
    rw [sortPairs]
    exact (insKey_perm p (sortPairs rest)).trans (ih.cons p)

theorem mem_sortPairs {α : Type} {l : List (List Nat × α)} {p : List Nat × α} :
    p ∈ sortPairs l ↔ p ∈ l :=
  (sortPairs_perm l).mem_iff

theorem lexLt_false_cases {a b : List Nat} (h : lexLt a b = false) :
    lexLt b a = true ∨ a = b := by
  by_cases h2 : lexLt b a = true
  · exact Or.inl h2
  · exact Or.inr (lexLt_connex a b h (by revert h2; cases lexLt b a <;> simp))

theorem insKey_sorted {α : Type} (p : List Nat × α) (l : List (List Nat × α))
    (hl : SortedKeys l) : SortedKeys (insKey p l) := by
  induction l with
  | nil =>
    rw [SortedKeys]
    simp [insKey]
  | cons q rest ih =>
    rw [SortedKeys, List.pairwise_cons] at hl
    rw [insKey]
    by_cases h : lexLt q.1 p.1 = true
    · rw [if_pos h, SortedKeys, List.pairwise_cons]
      refine ⟨?_, ih hl.2⟩
      intro r hr
      rcases List.mem_cons.1 ((insKey_perm p rest).mem_iff.1 hr) with hq | hr
      · rw [hq]
        exact lexLt_asymm _ _ h
      · exact hl.1 r hr
    · have hqp : lexLt q.1 p.1 = false := by revert h; cases lexLt q.1 p.1 <;> simp
      rw [if_neg h, SortedKeys, List.pairwise_cons]
      refine ⟨?_, List.pairwise_cons.2 ⟨hl.1, hl.2⟩⟩
      intro r hr
      rcases List.mem_cons.1 hr with rfl | hr
      · exact hqp
      · have hrq : lexLt r.1 q.1 = false := hl.1 r hr
        by_cases hrp : lexLt r.1 p.1 = true
        · rcases lexLt_false_cases hrq with hqr | hrqeq
          · have := lexLt_trans _ _ _ hqr hrp
            rw [this] at hqp
            exact absurd hqp (by simp)
          · rw [hrqeq] at hrp
            rw [hrp] at hqp
            exact absurd hqp (by simp)
        · revert hrp; cases lexLt r.1 p.1 <;> simp

theorem sortPairs_sorted {α : Type} (l : List (List Nat × α)) :
    SortedKeys (sortPairs l) := by
  induction l with
  | nil => rw [SortedKeys]; simp [sortPairs]
  | cons p rest ih => exact insKey_sorted p _ ih

theorem memKey_iff (k : List Nat) (ks : List (List Nat)) :
    memKey k ks = true ↔ k ∈ ks := by
  induction ks with
  | nil => simp [memKey]
  | cons kp rest ih =>
    rw [memKey]
    by_cases h : kp = k
    · subst h; simp
    · rw [if_neg h, ih]
      simp only [List.mem_cons]
      constructor
      · exact Or.inr
      · rintro (rfl | hk)
        · exact absurd rfl h
        · exact hk

theorem nodupKeys_iff (ks : List (List Nat)) : nodupKeys ks = true ↔ ks.Nodup := by
  induction ks with
  | nil => simp [nodupKeys]
  | cons k rest ih =>
    rw [nodupKeys, List.nodup_cons, Bool.and_eq_true, ih]
    constructor
    · rintro ⟨h1, h2⟩
      refine ⟨fun hmem => ?_, h2⟩
      rw [← memKey_iff] at hmem
      rw [hmem] at h1
      exact absurd h1 (by simp)
    · rintro ⟨h1, h2⟩
      refine ⟨?_, h2⟩
      cases hm : memKey k rest
      · simp
      · rw [memKey_iff] at hm
        exact absurd hm h1

theorem sorted_strict_of_nodup {α : Type} (l : List (List Nat × α))
    (hs : SortedKeys l) (hn : (l.map Prod.fst).Nodup) : StrictSortedKeys l := by
  have hn2 : l.Pairwise (fun p q => p.1 ≠ q.1) := by
    rw [List.Nodup, List.pairwise_map] at hn
    exact hn
  rw [SortedKeys] at hs
  rw [StrictSortedKeys]
  refine (hs.and hn2).imp ?_
  rintro p q ⟨h1, h2⟩
  rcases lexLt_false_cases h1 with ht | he
  · exact ht
  · exact absurd he.symm h2

theorem strictSorted_perm_eq {α : Type} :
    ∀ l₁ l₂ : List (List Nat × α), l₁.Perm l₂ →
      StrictSortedKeys l₁ → StrictSortedKeys l₂ → l₁ = l₂ := by
  intro l₁
  induction l₁ with
  | nil =>
    intro l₂ hp _ _
    exact (List.Perm.eq_nil hp.symm).symm
  | cons p t₁ ih =>
    intro l₂ hp h₁ h₂
    cases l₂ with
    | nil => exact absurd (List.Perm.eq_nil hp) (by simp)
    | cons q t₂ =>
      rw [StrictSortedKeys, List.pairwise_cons] at h₁ h₂
      by_cases hpq : p = q
      · subst hpq
        rw [ih t₂ (hp.cons_inv) h₁.2 h₂.2]
      · exfalso
        have hpmem : p ∈ q :: t₂ := hp.mem_iff.1 (by simp)
        have hqmem : q ∈ p :: t₁ := hp.mem_iff.2 (by simp)
        rcases List.mem_cons.1 hpmem with h | hpmem2
        · exact hpq h
        · rcases List.mem_cons.1 hqmem with h | hqmem2
          · exact hpq h.symm
          · have ha := h₁.1 q hqmem2
            have hb := h₂.1 p hpmem2
            rw [lexLt_asymm _ _ ha] at hb
            exact absurd hb (by simp)

theorem insKey_of_lt_all {α : Type} (p : List Nat × α) (l : List (List Nat × α))
    (h : ∀ q ∈ l, lexLt p.1 q.1 = true) : insKey p l = p :: l := by
  cases l with
  | nil => rfl
  | cons q rest =>
    rw [insKey, if_neg]
    rw [lexLt_asymm _ _ (h q (by simp))]
    simp

theorem sortPairs_of_strictSorted {α : Type} :
    ∀ l : List (List Nat × α), StrictSortedKeys l → sortPairs l = l := by
  intro l
  induction l with
  | nil => intro _; rfl
  | cons p rest ih =>
    intro h
    rw [StrictSortedKeys, List.pairwise_cons] at h
    rw [sortPairs, ih h.2]
    exact insKey_of_lt_all p rest h.1

theorem insKey_map {α β : Type} (g : List Nat × α → β) (p : List Nat × α)
    (l : List (List Nat × α)) :
    insKey (p.1, g p) (l.map (fun kv => (kv.1, g kv)))
      = (insKey p l).map (fun kv => (kv.1, g kv)) := by
  induction l with
  | nil => rfl
  | cons q rest ih =>
    simp only [List.map_cons, insKey]
    by_cases h : lexLt q.1 p.1 = true
    · simp only [h, if_true, List.map_cons, ih]
    · have h2 : lexLt q.1 p.1 = false := by revert h; cases lexLt q.1 p.1 <;> simp
      simp [h2]

theorem sortPairs_map {α β : Type} (g : List Nat × α → β) (l : List (List Nat × α)) :
    sortPairs (l.map (fun kv => (kv.1, g kv)))
      = (sortPairs l).map (fun kv => (kv.1, g kv)) := by
  induction l with
  | nil => rfl
  | cons p rest ih =>
    simp only [List.map_cons, sortPairs, ih]
    exact insKey_map g p (sortPairs rest)

theorem dictInsert_fresh (d : List (List Nat × Value)) (k : List Nat) (v : Value)
    (h : memKey k (d.map Prod.fst) = false) : dictInsert d k v = d ++ [(k, v)] := by
  induction d with
  | nil => rfl
  | cons p rest ih =>
    obtain ⟨kp, vp⟩ := p
    simp only [List.map_cons, memKey] at h
    by_cases hk : kp = k
    · rw [if_pos hk] at h
      exact absurd h (by simp)
    · rw [if_neg hk] at h
      rw [dictInsert, if_neg hk, ih h]
      simp

/- ------------------------------------------------------------------
Shape, size and fuel-cost lemmas used by the round-trip induction.
------------------------------------------------------------------ -/

theorem encodePairs_eq_map (d : List (List Nat × Value)) :
    encodePairs d = d.map (fun kv => (kv.1, encStr kv.1 ++ encode kv.2)) := by
  induction d with
  | nil => rfl
  | cons p rest ih =>
    obtain ⟨k, v⟩ := p
    rw [encodePairs, ih]
    rfl

theorem canonPairs_eq_map (d : List (List Nat × Value)) :
    canonPairs d = d.map (fun kv => (kv.1, canon kv.2)) := by
  induction d with
  | nil => rfl
  | cons p rest ih =>
    obtain ⟨k, v⟩ := p
    rw [canonPairs, ih]
    rfl

theorem canonPairs_sortPairs (d : List (List Nat × Value)) :
    canonPairs (sortPairs d) = sortPairs (canonPairs d) := by
  rw [canonPairs_eq_map, canonPairs_eq_map,
    sortPairs_map (fun kv => canon kv.2) d]

theorem flatten_snd_eq_pairsBytes (ps : List (List Nat × Value)) :
    ((ps.map (fun kv => (kv.1, encStr kv.1 ++ encode kv.2))).map Prod.snd).flatten
      = pairsBytes ps := by
  induction ps with
  | nil => rfl
  | cons p rest ih =>
    obtain ⟨k, v⟩ := p
    simp only [List.map_cons, List.flatten_cons, ih, pairsBytes, List.append_assoc]

theorem encode_dict_eq (d : List (List Nat × Value)) :
    encode (.dict d) = TOKEN_DICT :: pairsBytes (sortPairs d) ++ [TOKEN_END] := by
  rw [encode, encodePairs_eq_map,
    sortPairs_map (fun kv => encStr kv.1 ++ encode kv.2) d,
    flatten_snd_eq_pairsBytes]

theorem encode_cons (v : Value) : ∃ b t, encode v = b :: t ∧ b ≠ TOKEN_END := by
  cases v with
  | int n => exact ⟨TOKEN_INT, _, rfl, by rw [TOKEN_INT, TOKEN_END]; omega⟩
  | str s =>
    obtain ⟨b, t, hbt⟩ := natStr_cons s.length
    refine ⟨b, t ++ TOKEN_STR_SPLIT :: s, ?_, digit_ne_end (natStr_head_digit _ hbt)⟩
    rw [encode, encStr, hbt]
    rfl
  | list l => exact ⟨TOKEN_LIST, _, rfl, by rw [TOKEN_LIST, TOKEN_END]; omega⟩
  | dict d =>
    exact ⟨TOKEN_DICT, pairsBytes (sortPairs d) ++ [TOKEN_END],
      by rw [encode_dict_eq]; rfl, by rw [TOKEN_DICT, TOKEN_END]; omega⟩

theorem fcost_pos (v : Value) : 1 ≤ fcost v := by
  cases v <;> simp [fcost] <;> omega

theorem costItems_pos (l : List Value) : 1 ≤ costItems l := by
  cases l <;> simp [costItems] <;> omega

theorem costPairs_pos (d : List (List Nat × Value)) : 1 ≤ costPairs d := by
  cases d <;> simp [costPairs] <;> omega

theorem costPairs_eq_sum (d : List (List Nat × Value)) :
    costPairs d = 1 + ((d.map (fun p => 1 + fcost p.2)).sum) := by
  induction d with
  | nil => simp [costPairs]
  | cons p rest ih =>
    rw [costPairs, ih]
    simp only [List.map_cons, List.sum_cons]
    omega

theorem costPairs_sortPairs (d : List (List Nat × Value)) :
    costPairs (sortPairs d) = costPairs d := by
  rw [costPairs_eq_sum, costPairs_eq_sum]
  have h := (sortPairs_perm d).map (fun p => 1 + fcost p.2)
  rw [h.sum_eq]

theorem vsize_pos (v : Value) : 1 ≤ vsize v := by
  cases v <;> simp [vsize]

theorem mem_isize {v : Value} : ∀ {l : List Value}, v ∈ l → vsize v < 1 + isize l := by
  intro l
  induction l with
  | nil => intro h; simp at h
  | cons u rest ih =>
    intro h
    rcases List.mem_cons.1 h with rfl | h
    · rw [isize]; omega
    · have := ih h
      rw [isize]; omega

theorem mem_psize {p : List Nat × Value} :
    ∀ {d : List (List Nat × Value)}, p ∈ d → vsize p.2 < 1 + psize d := by
  intro d
  induction d with
  | nil => intro h; simp at h
  | cons q rest ih =>
    intro h
    rcases List.mem_cons.1 h with rfl | h
    · rw [psize]; omega
    · have := ih h
      rw [psize]; omega

theorem wfItems_mem {l : List Value} (h : wfItems l = true) :
    ∀ v ∈ l, wfV v = true := by
  induction l with
  | nil => intro v hv; simp at hv
  | cons u rest ih =>
    rw [wfItems, Bool.and_eq_true] at h
    intro v hv
    rcases List.mem_cons.1 hv with rfl | hv
    · exact h.1
    · exact ih h.2 v hv

theorem wfPairs_mem {d : List (List Nat × Value)} (h : wfPairs d = true) :
    ∀ p ∈ d, wfV p.2 = true := by
  induction d with
  | nil => intro p hp; simp at hp
  | cons q rest ih =>
    rw [wfPairs, Bool.and_eq_true] at h
    intro p hp
    rcases List.mem_cons.1 hp with rfl | hp
    · exact h.1
    · exact ih h.2 p hp

/- ------------------------------------------------------------------
The round-trip induction: `decodeNext` over `encode v` yields `canon v`.
------------------------------------------------------------------ -/

theorem listLoop_enc (items : List Value) :
    ∀ (pre post : List Nat) (acc : List Value) (fuel : Nat),
    (∀ v ∈ items, ∀ (pre2 post2 : List Nat) (fuel2 : Nat), fcost v ≤ fuel2 →
      decodeNext (pre2 ++ encode v ++ post2) fuel2 pre2.length
        = .ok (canon v, pre2.length + (encode v).length)) →
    costItems items ≤ fuel →
    listLoop (pre ++ encodeItems items ++ TOKEN_END :: post) fuel pre.length acc
      = .ok (.list (acc ++ canonItems items),
             pre.length + (encodeItems items).length + 1) := by
  induction items with
  | nil =>
    intro pre post acc fuel hIH hfuel
    rw [costItems] at hfuel
    obtain ⟨f, rfl⟩ : ∃ f, fuel = f + 1 := ⟨fuel - 1, by omega⟩
    have hb : byteAt (pre ++ encodeItems [] ++ TOKEN_END :: post) pre.length
        = some TOKEN_END := by
      rw [encodeItems]
      simp only [List.nil_append, List.append_nil]
      exact byteAt_append_head _ _ _
    rw [listLoop]
    simp only [hb]
    rw [if_pos trivial]
    rw [encodeItems, canonItems]
    simp
  | cons v rest ih =>
    intro pre post acc fuel hIH hfuel
    rw [costItems] at hfuel
    have hcr := costItems_pos rest
    have hfv := fcost_pos v
    obtain ⟨f, rfl⟩ : ∃ f, fuel = f + 1 := ⟨fuel - 1, by omega⟩
    obtain ⟨b, t, hbt, hbne⟩ := encode_cons v
    have henc : pre ++ encodeItems (v :: rest) ++ TOKEN_END :: post
        = pre ++ encode v ++ (encodeItems rest ++ TOKEN_END :: post) := by
      rw [encodeItems]
      simp [List.append_assoc]
    have hb : byteAt (pre ++ encodeItems (v :: rest) ++ TOKEN_END :: post) pre.length
        = some b := by
      rw [henc, hbt]
      simp only [List.append_assoc, List.cons_append]
      exact byteAt_append_head _ _ _
    rw [listLoop]
    simp only [hb]
    rw [if_neg hbne]
    have hdn : decodeNext (pre ++ encodeItems (v :: rest) ++ TOKEN_END :: post) f
        pre.length = .ok (canon v, pre.length + (encode v).length) := by
      rw [henc]
      exact hIH v (by simp) pre (encodeItems rest ++ TOKEN_END :: post) f (by omega)
    simp only [hdn]
    have hlen : ¬((pre ++ encodeItems (v :: rest) ++ TOKEN_END :: post).length
        ≤ pre.length + (encode v).length) := by
      rw [encodeItems]
      simp only [List.length_append, List.length_cons]
      omega
    rw [if_neg hlen]
    have hrec := ih (pre ++ encode v) post (acc ++ [canon v]) f
      (fun u hu pre2 post2 fuel2 hf2 => hIH u (by simp [hu]) pre2 post2 fuel2 hf2)
      (by omega)
    rw [List.length_append] at hrec
    have hbuf : pre ++ encodeItems (v :: rest) ++ TOKEN_END :: post
        = pre ++ encode v ++ (encodeItems rest ++ TOKEN_END :: post) := henc
    rw [hbuf]
    rw [show pre ++ encode v ++ (encodeItems rest ++ TOKEN_END :: post)
        = (pre ++ encode v) ++ encodeItems rest ++ TOKEN_END :: post by
      simp [List.append_assoc]]
    rw [hrec]
    rw [encodeItems, canonItems]
    simp only [List.append_assoc, List.singleton_append, List.length_append]
    congr 2
    omega

theorem memKey_eq_false (k : List Nat) (ks : List (List Nat)) :
    memKey k ks = false ↔ k ∉ ks := by
  rw [← memKey_iff]
  cases memKey k ks <;> simp

theorem dictLoop_enc (ps : List (List Nat × Value)) :
    ∀ (pre post : List Nat) (acc : List (List Nat × Value)) (fuel : Nat),
    (∀ p ∈ ps, ∀ (pre2 post2 : List Nat) (fuel2 : Nat), fcost p.2 ≤ fuel2 →
      decodeNext (pre2 ++ encode p.2 ++ post2) fuel2 pre2.length
        = .ok (canon p.2, pre2.length + (encode p.2).length)) →
    costPairs ps ≤ fuel →
    (∀ p ∈ ps, memKey p.1 (acc.map Prod.fst) = false) →
    (ps.map Prod.fst).Nodup →
    dictLoop (pre ++ pairsBytes ps ++ TOKEN_END :: post) fuel pre.length acc
      = .ok (.dict (acc ++ canonPairs ps), pre.length + (pairsBytes ps).length + 1) := by
  induction ps with
  | nil =>
    intro pre post acc fuel hIH hfuel hfresh hnodup
    rw [costPairs] at hfuel
    obtain ⟨f, rfl⟩ : ∃ f, fuel = f + 1 := ⟨fuel - 1, by omega⟩
    have hb : byteAt (pre ++ pairsBytes [] ++ TOKEN_END :: post) pre.length
        = some TOKEN_END := by
      rw [pairsBytes]
      simp only [List.nil_append, List.append_nil]
      exact byteAt_append_head _ _ _
    rw [dictLoop]
    simp only [hb]
    rw [if_pos trivial]
    rw [pairsBytes, canonPairs]
    simp
  | cons p rest ih =>
    obtain ⟨k, v⟩ := p
    intro pre post acc fuel hIH hfuel hfresh hnodup
    simp only [costPairs] at hfuel
    have hcr := costPairs_pos rest
    have hfv := fcost_pos v
    obtain ⟨f, rfl⟩ : ∃ f, fuel = f + 1 := ⟨fuel - 1, by omega⟩
    obtain ⟨kb, kt, hkbt⟩ := natStr_cons k.length
    have hkdig := natStr_head_digit _ hkbt
    have henc : pre ++ pairsBytes ((k, v) :: rest) ++ TOKEN_END :: post
        = pre ++ encStr k ++ (encode v ++ (pairsBytes rest ++ TOKEN_END :: post)) := by
      rw [pairsBytes]
      simp [List.append_assoc]
    have hb : byteAt (pre ++ pairsBytes ((k, v) :: rest) ++ TOKEN_END :: post) pre.length
        = some kb := by
      rw [henc, encStr, hkbt]
      simp only [List.append_assoc, List.cons_append]
      exact byteAt_append_head _ _ _
    rw [dictLoop]
    simp only [hb]
    rw [if_neg (digit_ne_end hkdig)]
    have hkey : decodeStr (pre ++ pairsBytes ((k, v) :: rest) ++ TOKEN_END :: post)
        pre.length = .ok (k, pre.length + (encStr k).length) := by
      rw [henc]
      exact decodeStr_enc k pre (encode v ++ (pairsBytes rest ++ TOKEN_END :: post))
    simp only [hkey]
    have hval : decodeNext (pre ++ pairsBytes ((k, v) :: rest) ++ TOKEN_END :: post) f
        (pre.length + (encStr k).length)
        = .ok (canon v, pre.length + (encStr k).length + (encode v).length) := by
      have h := hIH (k, v) (by simp) (pre ++ encStr k)
        (pairsBytes rest ++ TOKEN_END :: post) f (by show fcost v ≤ f; omega)
      rw [List.length_append] at h
      rw [henc]
      rw [show pre ++ encStr k ++ (encode v ++ (pairsBytes rest ++ TOKEN_END :: post))
          = (pre ++ encStr k) ++ encode v ++ (pairsBytes rest ++ TOKEN_END :: post) by
        simp [List.append_assoc]]
      exact h
    simp only [hval]
    have hlen : ¬((pre ++ pairsBytes ((k, v) :: rest) ++ TOKEN_END :: post).length
        ≤ pre.length + (encStr k).length + (encode v).length) := by
      rw [pairsBytes]
      simp only [List.length_append, List.length_cons]
      omega
    rw [if_neg hlen]
    have hins : dictInsert acc k (canon v) = acc ++ [(k, canon v)] :=
      dictInsert_fresh acc k (canon v) (hfresh (k, v) (by simp))
    rw [hins]
    have hnodup2 := hnodup
    rw [List.map_cons, List.nodup_cons] at hnodup2
    have hfresh2 : ∀ q ∈ rest, memKey q.1 ((acc ++ [(k, canon v)]).map Prod.fst) = false := by
      intro q hq
      rw [memKey_eq_false, List.map_append, List.mem_append]
      push_neg
      constructor
      · rw [← memKey_eq_false]
        exact hfresh q (by simp [hq])
      · have : q.1 ∈ rest.map Prod.fst := List.mem_map_of_mem Prod.fst hq
        simp only [List.map_cons, List.map_nil, List.mem_singleton]
        intro hcontra
        rw [hcontra] at this
        exact hnodup2.1 this
    have hrec := ih (pre ++ encStr k ++ encode v) post (acc ++ [(k, canon v)]) f
      (fun q hq pre2 post2 fuel2 hf2 => hIH q (by simp [hq]) pre2 post2 fuel2 hf2)
      (by omega) hfresh2 hnodup2.2
    rw [List.length_append, List.length_append] at hrec
    rw [henc]
    rw [show pre ++ encStr k ++ (encode v ++ (pairsBytes rest ++ TOKEN_END :: post))
        = (pre ++ encStr k ++ encode v) ++ pairsBytes rest ++ TOKEN_END :: post by
      simp [List.append_assoc]]
    rw [hrec]
    rw [pairsBytes, canonPairs]
    simp only [List.append_assoc, List.singleton_append, List.length_append]
    congr 2
    omega

theorem decodeNext_enc_aux :
    ∀ (N : Nat) (v : Value), vsize v ≤ N → wfV v = true →
    ∀ (pre post : List Nat) (fuel : Nat), fcost v ≤ fuel →
    decodeNext (pre ++ encode v ++ post) fuel pre.length
      = .ok (canon v, pre.length + (encode v).length) := by
  intro N
  induction N with
  | zero =>
    intro v hsize
    have := vsize_pos v
    omega
  | succ N ihN =>
    intro v hsize hwf pre post fuel hfuel
    have hf1 := fcost_pos v
    obtain ⟨f, rfl⟩ : ∃ f, fuel = f + 1 := ⟨fuel - 1, by omega⟩
    cases v with
    | int n =>
      have hb : byteAt (pre ++ encode (.int n) ++ post) pre.length = some TOKEN_INT := by
        rw [encode]
        simp only [List.append_assoc, List.cons_append]
        exact byteAt_append_head _ _ _
      rw [decodeNext]
      simp only [hb]
      rw [if_pos trivial]
      rw [show encode (.int n) = TOKEN_INT :: intStr n ++ [TOKEN_END] from rfl]
      simp only [decodeInt_enc n pre post]
      rw [canon]
      simp only [List.length_cons, List.length_append, List.length_nil,
        Except.ok.injEq, Prod.mk.injEq]
      exact ⟨trivial, by omega⟩
    | str s =>
      obtain ⟨b, t, hbt⟩ := natStr_cons s.length
      have hdig := natStr_head_digit _ hbt
      have hb : byteAt (pre ++ encode (.str s) ++ post) pre.length = some b := by
        rw [encode, encStr, hbt]
        simp only [List.append_assoc, List.cons_append]
        exact byteAt_append_head _ _ _
      rw [decodeNext]
      simp only [hb]
      rw [if_neg (digit_ne_int hdig), if_neg (digit_ne_list hdig),
        if_neg (digit_ne_dict hdig)]
      rw [show encode (.str s) = encStr s from rfl]
      simp only [decodeStr_enc s pre post]
      rw [canon]
    | list l =>
      have hwfl : wfItems l = true := by rwa [wfV] at hwf
      simp only [fcost] at hfuel
      have hcl := costItems_pos l
      have hb : byteAt (pre ++ encode (.list l) ++ post) pre.length
          = some TOKEN_LIST := by
        rw [encode]
        simp only [List.append_assoc, List.cons_append]
        exact byteAt_append_head _ _ _
      rw [decodeNext]
      simp only [hb]
      rw [if_neg (show ¬(TOKEN_LIST = TOKEN_INT) by rw [TOKEN_LIST, TOKEN_INT]; omega)]
      rw [if_pos trivial]
      obtain ⟨f2, rfl⟩ : ∃ f2, f = f2 + 1 := ⟨f - 1, by omega⟩
      rw [decodeList]
      simp only [hb]
      rw [if_pos trivial]
      have hloop := listLoop_enc l (pre ++ [TOKEN_LIST]) post [] f2
        (fun u hu pre2 post2 fuel2 hf2 => by
          refine ihN u ?_ (wfItems_mem hwfl u hu) pre2 post2 fuel2 hf2
          have h1 := mem_isize hu
          simp only [vsize] at hsize
          omega)
        (by omega)
      simp only [List.length_append, List.length_cons, List.length_nil,
        Nat.zero_add] at hloop
      rw [show pre ++ encode (.list l) ++ post
          = (pre ++ [TOKEN_LIST]) ++ encodeItems l ++ TOKEN_END :: post by
        rw [encode]; simp [List.append_assoc]]
      rw [hloop]
      rw [canon]
      simp only [List.nil_append, List.length_cons, List.length_append, List.length_nil]
      rw [show (encode (.list l)).length = (encodeItems l).length + 2 by
        rw [encode]; simp]
      congr 2
      omega
    | dict d =>
      rw [wfV, Bool.and_eq_true] at hwf
      obtain ⟨hnk, hwp⟩ := hwf
      simp only [fcost] at hfuel
      have hcd := costPairs_pos d
      have hb : byteAt (pre ++ encode (.dict d) ++ post) pre.length
          = some TOKEN_DICT := by
        rw [encode_dict_eq]
        simp only [List.append_assoc, List.cons_append]
        exact byteAt_append_head _ _ _
      rw [decodeNext]
      simp only [hb]
      rw [if_neg (show ¬(TOKEN_DICT = TOKEN_INT) by rw [TOKEN_DICT, TOKEN_INT]; omega)]
      rw [if_neg (show ¬(TOKEN_DICT = TOKEN_LIST) by rw [TOKEN_DICT, TOKEN_LIST]; omega)]
      rw [if_pos trivial]
      obtain ⟨f2, rfl⟩ : ∃ f2, f = f2 + 1 := ⟨f - 1, by omega⟩
      rw [decodeDict]
      have hnodup : ((sortPairs d).map Prod.fst).Nodup := by
        have hperm := (sortPairs_perm d).map Prod.fst
        rw [hperm.nodup_iff]
        exact (nodupKeys_iff _).1 hnk
      have hloop := dictLoop_enc (sortPairs d) (pre ++ [TOKEN_DICT]) post [] f2
        (fun p hp pre2 post2 fuel2 hf2 => by
          have hmem : p ∈ d := mem_sortPairs.1 hp
          refine ihN p.2 ?_ (wfPairs_mem hwp p hmem) pre2 post2 fuel2 hf2
          have h1 := mem_psize hmem
          simp only [vsize] at hsize
          omega)
        (by rw [costPairs_sortPairs]; omega)
        (fun q hq => rfl)
        hnodup
      simp only [List.length_append, List.length_cons, List.length_nil,
        Nat.zero_add] at hloop
      rw [show pre ++ encode (.dict d) ++ post
          = (pre ++ [TOKEN_DICT]) ++ pairsBytes (sortPairs d) ++ TOKEN_END :: post by
        rw [encode_dict_eq]; simp [List.append_assoc]]
      rw [hloop]
      rw [canon, ← canonPairs_sortPairs]
      simp only [List.nil_append]
      rw [show (encode (.dict d)).length = (pairsBytes (sortPairs d)).length + 2 by
        rw [encode_dict_eq]; simp]
      congr 2
      omega

theorem costItems_le (items : List Value)
    (IH : ∀ v ∈ items, fcost v + 2 ≤ 3 * (encode v).length) :
    costItems items ≤ 3 * (encodeItems items).length + 1 := by
  induction items with
  | nil => simp [costItems, encodeItems]
  | cons v rest ih =>
    rw [costItems, encodeItems]
    have h1 := IH v (by simp)
    have h2 := ih (fun u hu => IH u (by simp [hu]))
    simp only [List.length_append]
    omega

theorem costPairs_le (ps : List (List Nat × Value))
    (IH : ∀ p ∈ ps, fcost p.2 + 2 ≤ 3 * (encode p.2).length) :
    costPairs ps ≤ 3 * (pairsBytes ps).length + 1 := by
  induction ps with
  | nil => simp [costPairs, pairsBytes]
  | cons p rest ih =>
    obtain ⟨k, v⟩ := p
    simp only [costPairs, pairsBytes]
    have h1 : fcost v + 2 ≤ 3 * (encode v).length := IH (k, v) (by simp)
    have h2 := ih (fun q hq => IH q (by simp [hq]))
    simp only [List.length_append]
    omega

theorem fcost_le_aux : ∀ (N : Nat) (v : Value), vsize v ≤ N →
    fcost v + 2 ≤ 3 * (encode v).length := by
  intro N
  induction N with
  | zero =>
    intro v h
    have := vsize_pos v
    omega
  | succ N ih =>
    intro v hsize
    cases v with
    | int n =>
      have hlen : 1 ≤ (intStr n).length := by
        rw [intStr]
        by_cases hn : n < 0
        · rw [if_pos hn]; simp
        · rw [if_neg hn]; exact natStr_length_pos _
      simp only [fcost, encode, List.length_cons, List.length_append, List.length_nil]
      omega
    | str s =>
      have hlen : 1 ≤ (natStr s.length).length := natStr_length_pos _
      simp only [fcost, encode, encStr, List.length_append, List.length_cons]
      omega
    | list l =>
      have h := costItems_le l (fun u hu => ih u (by
        have := mem_isize hu
        simp only [vsize] at hsize
        omega))
      simp only [fcost, encode, List.length_cons, List.length_append, List.length_nil]
      omega
    | dict d =>
      have h := costPairs_le (sortPairs d) (fun p hp => ih p.2 (by
        have := mem_psize (mem_sortPairs.1 hp)
        simp only [vsize] at hsize
        omega))
      simp only [fcost]
      rw [← costPairs_sortPairs d, encode_dict_eq]
      simp only [List.length_cons, List.length_append, List.length_nil]
      omega

theorem fcost_le (v : Value) : fcost v + 2 ≤ 3 * (encode v).length :=
  fcost_le_aux (vsize v) v (le_refl _)

/-- Decoding a buffer produced by `encode` always succeeds, consuming the
whole buffer; the resulting tree is `canon v` — `v` with every dict level in
the sorted order the encoder emitted. -/
theorem decode_encode (v : Value) (hwf : wfV v = true) :
    decode (encode v) = .ok (canon v) := by
  rw [decode]
  have h := decodeNext_enc_aux (vsize v) v (le_refl _) hwf [] []
    (3 * (encode v).length + 1) (by have := fcost_le v; omega)
  simp only [List.nil_append, List.append_nil, List.length_nil] at h
  simp only [h]
  rw [if_pos (Nat.zero_add _)]

/- ------------------------------------------------------------------
Canonical values: `canon` is the identity on them, and they are
well-formed.
------------------------------------------------------------------ -/

theorem strictSortedKeys_pairwise : ∀ ks : List (List Nat),
    strictSortedKeys ks = true → ks.Pairwise (fun a b => lexLt a b = true) := by
  intro ks
  induction ks with
  | nil => intro _; exact List.Pairwise.nil
  | cons a rest ih =>
    intro h
    cases rest with
    | nil => simp
    | cons b rest2 =>
      rw [strictSortedKeys, Bool.and_eq_true] at h
      have hp := ih h.2
      rw [List.pairwise_cons]
      refine ⟨?_, hp⟩
      intro c hc
      rcases List.mem_cons.1 hc with rfl | hc
      · exact h.1
      · rw [List.pairwise_cons] at hp
        exact lexLt_trans _ _ _ h.1 (hp.1 c hc)

theorem strictSortedKeys_pairs {α : Type} (d : List (List Nat × α))
    (h : strictSortedKeys (d.map Prod.fst) = true) : StrictSortedKeys d := by
  have h2 := strictSortedKeys_pairwise _ h
  rw [List.pairwise_map] at h2
  exact h2

theorem strictSortedKeys_nodup (ks : List (List Nat))
    (h : strictSortedKeys ks = true) : ks.Nodup := by
  refine (strictSortedKeys_pairwise ks h).imp ?_
  intro a b hab
  intro he
  rw [he, lexLt_irrefl] at hab
  exact absurd hab (by simp)

theorem canonicalItems_mem {l : List Value} (h : canonicalItems l = true) :
    ∀ v ∈ l, canonicalV v = true := by
  induction l with
  | nil => intro v hv; simp at hv
  | cons u rest ih =>
    rw [canonicalItems, Bool.and_eq_true] at h
    intro v hv
    rcases List.mem_cons.1 hv with rfl | hv
    · exact h.1
    · exact ih h.2 v hv

theorem canonicalPairs_mem {d : List (List Nat × Value)} (h : canonicalPairs d = true) :
    ∀ p ∈ d, canonicalV p.2 = true := by
  induction d with
  | nil => intro p hp; simp at hp
  | cons q rest ih =>
    rw [canonicalPairs, Bool.and_eq_true] at h
    intro p hp
    rcases List.mem_cons.1 hp with rfl | hp
    · exact h.1
    · exact ih h.2 p hp

theorem canonicalV_wf : ∀ (N : Nat) (v : Value), vsize v ≤ N →
    canonicalV v = true → wfV v = true := by
  intro N
  induction N with
  | zero =>
    intro v h
    have := vsize_pos v
    omega
  | succ N ih =>
    intro v hsize hc
    cases v with
    | int n => rfl
    | str s => rfl
    | list l =>
      rw [canonicalV] at hc
      rw [wfV]
      have : ∀ u ∈ l, wfV u = true := fun u hu => ih u
        (by have := mem_isize hu; simp only [vsize] at hsize; omega)
        (canonicalItems_mem hc u hu)
      clear hc hsize
      induction l with
      | nil => rfl
      | cons u rest ih2 =>
        rw [wfItems, Bool.and_eq_true]
        exact ⟨this u (by simp), ih2 (fun w hw => this w (by simp [hw]))⟩
    | dict d =>
      rw [canonicalV, Bool.and_eq_true] at hc
      rw [wfV, Bool.and_eq_true]
      constructor
      · rw [nodupKeys_iff]
        exact strictSortedKeys_nodup _ hc.1
      · have : ∀ p ∈ d, wfV p.2 = true := fun p hp => ih p.2
          (by have := mem_psize hp; simp only [vsize] at hsize; omega)
          (canonicalPairs_mem hc.2 p hp)
        clear hc hsize
        induction d with
        | nil => rfl
        | cons p rest ih2 =>
          rw [wfPairs, Bool.and_eq_true]
          exact ⟨this p (by simp), ih2 (fun q hq => this q (by simp [hq]))⟩

theorem canonItems_id (l : List Value) (IH : ∀ v ∈ l, canon v = v) :
    canonItems l = l := by
  induction l with
  | nil => rfl
  | cons v rest ih =>
    rw [canonItems, IH v (by simp), ih (fun u hu => IH u (by simp [hu]))]

theorem canonPairs_id (d : List (List Nat × Value)) (IH : ∀ p ∈ d, canon p.2 = p.2) :
    canonPairs d = d := by
  induction d with
  | nil => rfl
  | cons p rest ih =>
    obtain ⟨k, v⟩ := p
    rw [canonPairs]
    rw [show canon v = v from IH (k, v) (by simp)]
    rw [ih (fun q hq => IH q (by simp [hq]))]

theorem canon_id : ∀ (N : Nat) (v : Value), vsize v ≤ N →
    canonicalV v = true → canon v = v := by
  intro N
  induction N with
  | zero =>
    intro v h
    have := vsize_pos v
    omega
  | succ N ih =>
    intro v hsize hc
    cases v with
    | int n => rfl
    | str s => rfl
    | list l =>
      rw [canonicalV] at hc
      rw [canon]
      rw [canonItems_id l (fun u hu => ih u
        (by have := mem_isize hu; simp only [vsize] at hsize; omega)
        (canonicalItems_mem hc u hu))]
    | dict d =>
      rw [canonicalV, Bool.and_eq_true] at hc
      rw [canon]
      rw [canonPairs_id d (fun p hp => ih p.2
        (by have := mem_psize hp; simp only [vsize] at hsize; omega)
        (canonicalPairs_mem hc.2 p hp))]
      rw [sortPairs_of_strictSorted d (strictSortedKeys_pairs d hc.1)]

/- ------------------------------------------------------------------
Lookup lemmas and the extensional equivalence `VEquiv (canon v) v`.
------------------------------------------------------------------ -/

theorem dlookup_mem {k : List Nat} {v : Value} :
    ∀ {d : List (List Nat × Value)}, dlookup k d = some v → (k, v) ∈ d := by
  intro d
  induction d with
  | nil => intro h; simp [dlookup] at h
  | cons p rest ih =>
    obtain ⟨k2, v2⟩ := p
    intro h
    rw [dlookup] at h
    by_cases hk : k2 = k
    · rw [if_pos hk] at h
      injection h with h
      subst hk
      rw [h]
      simp
    · rw [if_neg hk] at h
      exact List.mem_cons_of_mem _ (ih h)

theorem dlookup_eq_none_iff (k : List Nat) (d : List (List Nat × Value)) :
    dlookup k d = none ↔ k ∉ d.map Prod.fst := by
  induction d with
  | nil => simp [dlookup]
  | cons p rest ih =>
    obtain ⟨k2, v2⟩ := p
    rw [dlookup]
    by_cases hk : k2 = k
    · rw [if_pos hk]
      subst hk
      simp
    · rw [if_neg hk, ih]
      simp only [List.map_cons, List.mem_cons]
      constructor
      · intro h hmem
        rcases hmem with heq | hmem
        · exact hk heq.symm
        · exact h hmem
      · intro h hmem
        exact h (Or.inr hmem)

theorem dlookup_eq_some_iff {k : List Nat} {v : Value}
    {d : List (List Nat × Value)} (hn : (d.map Prod.fst).Nodup) :
    dlookup k d = some v ↔ (k, v) ∈ d := by
  constructor
  · exact dlookup_mem
  · intro hmem
    induction d with
    | nil => simp at hmem
    | cons p rest ih =>
      obtain ⟨k2, v2⟩ := p
      rw [List.map_cons, List.nodup_cons] at hn
      rw [dlookup]
      rcases List.mem_cons.1 hmem with heq | hmem2
      · injection heq with h1 h2
        rw [if_pos (by rw [h1])]
        rw [h2]
      · by_cases hk : k2 = k
        · subst hk
          exfalso
          have : k2 ∈ rest.map Prod.fst := List.mem_map_of_mem Prod.fst hmem2
          exact hn.1 this
        · rw [if_neg hk]
          exact ih hn.2 hmem2

theorem dlookup_perm_nodup {d₁ d₂ : List (List Nat × Value)}
    (hp : d₁.Perm d₂) (hn : (d₁.map Prod.fst).Nodup) (k : List Nat) :
    dlookup k d₁ = dlookup k d₂ := by
  have hn₂ : (d₂.map Prod.fst).Nodup := ((hp.map Prod.fst).nodup_iff).1 hn
  cases h2 : dlookup k d₂ with
  | none =>
    rw [dlookup_eq_none_iff] at h2 ⊢
    intro hmem
    exact h2 (((hp.map Prod.fst).mem_iff).1 hmem)
  | some v =>
    have hmem : (k, v) ∈ d₁ := hp.mem_iff.2 (dlookup_mem h2)
    exact (dlookup_eq_some_iff hn).2 hmem

theorem map_fst_canonPairs (d : List (List Nat × Value)) :
    (canonPairs d).map Prod.fst = d.map Prod.fst := by
  rw [canonPairs_eq_map, List.map_map]
  rfl

theorem dlookup_canonPairs (k : List Nat) (d : List (List Nat × Value)) :
    dlookup k (canonPairs d) = (dlookup k d).map canon := by
  induction d with
  | nil => rfl
  | cons p rest ih =>
    obtain ⟨k2, v2⟩ := p
    rw [canonPairs, dlookup, dlookup]
    by_cases hk : k2 = k
    · rw [if_pos hk, if_pos hk]
      rfl
    · rw [if_neg hk, if_neg hk, ih]

theorem forall₂_canonItems (l : List Value) (IH : ∀ v ∈ l, VEquiv (canon v) v) :
    List.Forall₂ VEquiv (canonItems l) l := by
  induction l with
  | nil => exact List.Forall₂.nil
  | cons v rest ih =>
    rw [canonItems]
    exact List.Forall₂.cons (IH v (by simp)) (ih (fun u hu => IH u (by simp [hu])))

theorem VEquiv_canon : ∀ (N : Nat) (v : Value), vsize v ≤ N →
    wfV v = true → VEquiv (canon v) v := by
  intro N
  induction N with
  | zero =>
    intro v h
    have := vsize_pos v
    omega
  | succ N ih =>
    intro v hsize hwf
    cases v with
    | int n => exact VEquiv.int n
    | str s => exact VEquiv.str s
    | list l =>
      rw [wfV] at hwf
      rw [canon]
      exact VEquiv.list (forall₂_canonItems l (fun u hu => ih u
        (by have := mem_isize hu; simp only [vsize] at hsize; omega)
        (wfItems_mem hwf u hu)))
    | dict d =>
      rw [wfV, Bool.and_eq_true] at hwf
      obtain ⟨hnk, hwp⟩ := hwf
      have hnodup : (d.map Prod.fst).Nodup := (nodupKeys_iff _).1 hnk
      have hnodupc : ((canonPairs d).map Prod.fst).Nodup := by
        rw [map_fst_canonPairs]; exact hnodup
      have hlook : ∀ k, dlookup k (sortPairs (canonPairs d))
          = (dlookup k d).map canon := by
        intro k
        rw [dlookup_perm_nodup (sortPairs_perm (canonPairs d))
          ((((sortPairs_perm (canonPairs d)).map Prod.fst).nodup_iff).2 hnodupc) k]
        exact dlookup_canonPairs k d
      rw [canon]
      refine VEquiv.dict ?_ ?_
      · intro k
        rw [hlook k]
        cases dlookup k d <;> rfl
      · intro k v₁ v₂ h₁ h₂
        rw [hlook k, h₂] at h₁
        injection h₁ with h₁
        rw [← h₁]
        have hmem := dlookup_mem h₂
        have hs : vsize v₂ < 1 + psize d := mem_psize hmem
        exact ih v₂ (by simp only [vsize] at hsize; omega) (wfPairs_mem hwp _ hmem)

/- ------------------------------------------------------------------
Uniqueness of the sorted pair list: two strictly-sorted lists with the
same members are equal.  This drives the hash-stability property.
------------------------------------------------------------------ -/

theorem map_fst_encodePairs (d : List (List Nat × Value)) :
    (encodePairs d).map Prod.fst = d.map Prod.fst := by
  rw [encodePairs_eq_map, List.map_map]
  rfl

theorem strictSorted_memiff_eq {α : Type} :
    ∀ l₁ l₂ : List (List Nat × α), (∀ x, x ∈ l₁ ↔ x ∈ l₂) →
      StrictSortedKeys l₁ → StrictSortedKeys l₂ → l₁ = l₂ := by
  intro l₁
  induction l₁ with
  | nil =>
    intro l₂ hmem _ _
    cases l₂ with
    | nil => rfl
    | cons q t₂ => exact absurd ((hmem q).2 (by simp)) (by simp)
  | cons p t₁ ih =>
    intro l₂ hmem h₁ h₂
    cases l₂ with
    | nil => exact absurd ((hmem p).1 (by simp)) (by simp)
    | cons q t₂ =>
      rw [StrictSortedKeys, List.pairwise_cons] at h₁ h₂
      by_cases hpq : p = q
      · subst hpq
        congr 1
        refine ih t₂ ?_ h₁.2 h₂.2
        intro x
        constructor
        · intro hx
          rcases List.mem_cons.1 ((hmem x).1 (by simp [hx])) with rfl | hx2
          · have := h₁.1 x hx
            rw [lexLt_irrefl] at this
            exact absurd this (by simp)
          · exact hx2
        · intro hx
          rcases List.mem_cons.1 ((hmem x).2 (by simp [hx])) with rfl | hx2
          · have := h₂.1 x hx
            rw [lexLt_irrefl] at this
            exact absurd this (by simp)
          · exact hx2
      · exfalso
        have hp2 : p ∈ t₂ := by
          rcases List.mem_cons.1 ((hmem p).1 (by simp)) with h | h
          · exact absurd h hpq
          · exact h
        have hq1 : q ∈ t₁ := by
          rcases List.mem_cons.1 ((hmem q).2 (by simp)) with h | h
          · exact absurd h.symm hpq
          · exact h
        have ha := h₁.1 q hq1
        have hb := h₂.1 p hp2
        rw [lexLt_asymm _ _ ha] at hb
        exact absurd hb (by simp)

theorem mem_encodePairs {d : List (List Nat × Value)} {x : List Nat × List Nat} :
    x ∈ encodePairs d ↔ ∃ kv ∈ d, x = (kv.1, encStr kv.1 ++ encode kv.2) := by
  rw [encodePairs_eq_map, List.mem_map]
  constructor
  · rintro ⟨kv, hkv, rfl⟩
    exact ⟨kv, hkv, rfl⟩
  · rintro ⟨kv, hkv, rfl⟩
    exact ⟨kv, hkv, rfl⟩

/-- Two dicts with distinct keys that agree as key-to-value mappings
produce byte-identical encodings. -/
theorem encode_dict_ext {d₁ d₂ : List (List Nat × Value)}
    (hn₁ : (d₁.map Prod.fst).Nodup) (hn₂ : (d₂.map Prod.fst).Nodup)
    (hmap : ∀ k, dlookup k d₁ = dlookup k d₂) :
    encode (.dict d₁) = encode (.dict d₂) := by
  have hmem : ∀ kv : List Nat × Value, kv ∈ d₁ ↔ kv ∈ d₂ := by
    rintro ⟨k, v⟩
    rw [← dlookup_eq_some_iff hn₁, ← dlookup_eq_some_iff hn₂, hmap k]
  have hsorteq : sortPairs (encodePairs d₁) = sortPairs (encodePairs d₂) := by
    refine strictSorted_memiff_eq _ _ ?_ ?_ ?_
    · intro x
      rw [mem_sortPairs, mem_sortPairs, mem_encodePairs, mem_encodePairs]
      constructor
      · rintro ⟨kv, hkv, rfl⟩
        exact ⟨kv, (hmem kv).1 hkv, rfl⟩
      · rintro ⟨kv, hkv, rfl⟩
        exact ⟨kv, (hmem kv).2 hkv, rfl⟩
    · refine sorted_strict_of_nodup _ (sortPairs_sorted _) ?_
      rw [((sortPairs_perm (encodePairs d₁)).map Prod.fst).nodup_iff,
        map_fst_encodePairs]
      exact hn₁
    · refine sorted_strict_of_nodup _ (sortPairs_sorted _) ?_
      rw [((sortPairs_perm (encodePairs d₂)).map Prod.fst).nodup_iff,
        map_fst_encodePairs]
      exact hn₂
  rw [encode, encode, hsorteq]

/- ------------------------------------------------------------------
Top-level string decodes with arbitrary digit prefixes: truncation and
non-minimal length prefixes.
------------------------------------------------------------------ -/

theorem digitsToNat_cons_zero (s : List Nat) : digitsToNat (48 :: s) = digitsToNat s := by
  rfl

theorem decodeStr_digits (ds s : List Nat) (h1 : ds ≠ []) (h2 : ds.all isDigit = true) :
    decodeStr (ds ++ TOKEN_STR_SPLIT :: s) 0
      = .ok (s.take (digitsToNat ds), ds.length + digitsToNat ds + 1) := by
  rw [List.all_eq_true] at h2
  obtain ⟨b, t, hbt⟩ : ∃ b t, ds = b :: t := by
    cases ds with
    | nil => exact absurd rfl h1
    | cons b t => exact ⟨b, t, rfl⟩
  have hdig : isDigit b = true := h2 b (by rw [hbt]; simp)
  have hb0 : byteAt (ds ++ TOKEN_STR_SPLIT :: s) 0 = some b := by
    rw [hbt]; rfl
  have hscan : scanFor (ds ++ TOKEN_STR_SPLIT :: s) TOKEN_STR_SPLIT 0 = ds.length := by
    have h := scanFor_of_clean TOKEN_STR_SPLIT [] ds s
      (fun c hc => digit_ne_colon (h2 c hc))
    simpa using h
  have hslice : pySlice (ds ++ TOKEN_STR_SPLIT :: s) 0 ds.length = ds := by
    have h := pySlice_extract [] ds (TOKEN_STR_SPLIT :: s)
    simpa using h
  have hlen : pyLen ds = some (digitsToNat ds) := by
    rw [pyLen, if_pos ⟨h1, by rw [List.all_eq_true]; exact h2⟩]
  have hpayload : pySlice (ds ++ TOKEN_STR_SPLIT :: s)
      (ds.length + 1) (ds.length + digitsToNat ds + 1) = s.take (digitsToNat ds) := by
    have h := pySlice_tail (ds ++ [TOKEN_STR_SPLIT]) s (digitsToNat ds)
    simp only [List.length_append, List.length_cons, List.length_nil] at h
    rw [show (ds ++ [TOKEN_STR_SPLIT]) ++ s = ds ++ TOKEN_STR_SPLIT :: s by simp] at h
    convert h using 2
    omega
  rw [decodeStr, hb0]
  simp only [hdig, not_true_eq_false, if_false, hscan, hslice, hlen]
  have hne : ¬(ds.length = 0) := by
    rw [hbt]; simp
  rw [if_neg hne]
  rw [show ds.length + digitsToNat ds + 1
      = ds.length + 1 + digitsToNat ds from by omega] at hpayload ⊢
  rw [hpayload]

/-- A top-level byte string whose declared length exceeds the available
payload: `decode` raises, but with the trailing-data error — the next-index
arithmetic `end + length + 1` walks past the end of the buffer, so the final
consumed-length check fails; there is no truncated-string-specific error. -/
theorem decode_truncated_str (L : Nat) (payload : List Nat)
    (h : payload.length < L) :
    decode (natStr L ++ TOKEN_STR_SPLIT :: payload) = .error .trailingData := by
  obtain ⟨b, t, hbt⟩ := natStr_cons L
  have hdig := natStr_head_digit _ hbt
  have hb0 : byteAt (natStr L ++ TOKEN_STR_SPLIT :: payload) 0 = some b := by
    rw [hbt]; rfl
  have hstr := decodeStr_digits (natStr L) payload (natStr_ne_nil L)
    (by rw [List.all_eq_true]; exact natStr_all_digits L)
  rw [digitsToNat_natStr] at hstr
  rw [decode, decodeNext]
  simp only [hb0]
  rw [if_neg (digit_ne_int hdig), if_neg (digit_ne_list hdig),
    if_neg (digit_ne_dict hdig)]
  simp only [hstr]
  rw [if_neg (by
    simp only [List.length_append, List.length_cons]
    omega)]

/-- Length prefixes with leading zeros are accepted: `0` + the minimal
decimal form of the length decodes to the same string. -/
theorem decode_zero_padded_len (s : List Nat) :
    decode (48 :: natStr s.length ++ TOKEN_STR_SPLIT :: s) = .ok (.str s) := by
  have hdig : isDigit 48 = true := by rw [isDigit_iff]; omega
  have hb0 : byteAt (48 :: natStr s.length ++ TOKEN_STR_SPLIT :: s) 0 = some 48 := rfl
  have hall : (48 :: natStr s.length).all isDigit = true := by
    rw [List.all_eq_true]
    intro c hc
    rcases List.mem_cons.1 hc with rfl | hc
    · exact hdig
    · exact natStr_all_digits _ c hc
  have hstr := decodeStr_digits (48 :: natStr s.length) s (by simp) hall
  rw [digitsToNat_cons_zero, digitsToNat_natStr, List.take_length] at hstr
  rw [decode, decodeNext]
  rw [show ((48 : Nat) :: natStr s.length ++ TOKEN_STR_SPLIT :: s)
      = (48 :: natStr s.length) ++ TOKEN_STR_SPLIT :: s from by simp]
  simp only [show byteAt ((48 :: natStr s.length) ++ TOKEN_STR_SPLIT :: s) 0
      = some 48 from rfl]
  rw [if_neg (digit_ne_int hdig), if_neg (digit_ne_list hdig),
    if_neg (digit_ne_dict hdig)]
  simp only [hstr]
  rw [if_pos (by simp only [List.length_append, List.length_cons]; omega)]

/- ------------------------------------------------------------------
Duplicate keys: `output[key] = value` is last-write-wins.
------------------------------------------------------------------ -/

theorem dlookup_dictInsert_self (d : List (List Nat × Value)) (k : List Nat) (v : Value) :
    dlookup k (dictInsert d k v) = some v := by
  induction d with
  | nil => simp [dictInsert, dlookup]
  | cons p rest ih =>
    obtain ⟨k2, v2⟩ := p
    rw [dictInsert]
    by_cases hk : k2 = k
    · rw [if_pos hk, dlookup, if_pos rfl]
    · rw [if_neg hk, dlookup, if_neg hk, ih]

theorem dlookup_dictInsert_other (d : List (List Nat × Value)) (k : List Nat) (v : Value)
    (k2 : List Nat) (hne : k2 ≠ k) :
    dlookup k2 (dictInsert d k v) = dlookup k2 d := by
  induction d with
  | nil =>
    rw [dictInsert, dlookup, dlookup, if_neg (fun h => hne h.symm)]
    rfl
  | cons p rest ih =>
    obtain ⟨k3, v3⟩ := p
    by_cases hk : k3 = k
    · subst hk
      rw [dictInsert, if_pos rfl, dlookup, if_neg (fun h => hne h.symm), dlookup,
        if_neg (fun h => hne h.symm)]
    · rw [dictInsert, if_neg hk, dlookup, dlookup, ih]

/- ------------------------------------------------------------------
Prefix safety: a truncated value never decodes.
------------------------------------------------------------------ -/

/-- A successful byte read is inside the buffer. -/
theorem byteAt_some_lt {enc : List Nat} {i b : Nat} (h : byteAt enc i = some b) :
    i < enc.length := by
  by_contra hc
  rw [(byteAt_eq_none enc i).2 (by omega)] at h
  exact absurd h (by simp)

/-- Reads strictly inside `enc` are unchanged by appending bytes. -/
theorem byteAt_append_left (enc ext : List Nat) (i : Nat) (h : i < enc.length) :
    byteAt (enc ++ ext) i = byteAt enc i := by
  induction enc generalizing i with
  | nil => simp at h
  | cons b rest ih =>
    cases i with
    | zero => rfl
    | succ i =>
      simp only [List.length_cons] at h
      exact ih i (by omega)

/-- Reading the suffix `enc.drop i` at relative offset `r` is reading `enc`
at absolute offset `i + r`. -/
theorem byteAt_drop (enc : List Nat) (i r : Nat) :
    byteAt (enc.drop i) r = byteAt enc (i + r) := by
  induction i generalizing enc with
  | zero => simp
  | succ i ih =>
    cases enc with
    | nil => simp [byteAt]
    | cons b rest =>
      rw [show i + 1 + r = (i + r) + 1 from by omega]
      exact ih rest

/-- Inversion of a successful scan: a nonzero result is the absolute index
of the first occurrence of `tok` at or after `pos`. -/
theorem scanFrom_inv : ∀ (l : List Nat) (tok pos e : Nat),
    scanFrom l tok pos = e → e ≠ 0 →
    pos ≤ e ∧ byteAt l (e - pos) = some tok ∧
      ∀ r, r < e - pos → byteAt l r ≠ some tok := by
  intro l
  induction l with
  | nil =>
    intro tok pos e h h0
    rw [scanFrom] at h
    exact absurd h.symm h0
  | cons b rest ih =>
    intro tok pos e h h0
    rw [scanFrom] at h
    by_cases hb : b = tok
    · rw [if_pos hb] at h
      subst h
      refine ⟨le_refl _, ?_, ?_⟩
      · rw [Nat.sub_self, hb]
        rfl
      · intro r hr
        omega
    · rw [if_neg hb] at h
      obtain ⟨h1, h2, h3⟩ := ih tok (pos + 1) e h h0
      refine ⟨by omega, ?_, ?_⟩
      · rw [show e - pos = (e - (pos + 1)) + 1 from by omega]
        exact h2
      · intro r hr
        cases r with
        | zero =>
          intro hc
          exact hb (Option.some.inj hc)
        | succ r => exact h3 r (by omega)

/-- Constructive scan: if the first occurrence of `tok` at or after `pos` is
at absolute index `e`, the scan returns `e`. -/
theorem scanFrom_found : ∀ (l : List Nat) (tok pos e : Nat), pos ≤ e →
    byteAt l (e - pos) = some tok →
    (∀ r, r < e - pos → byteAt l r ≠ some tok) →
    scanFrom l tok pos = e := by
  intro l
  induction l with
  | nil =>
    intro tok pos e h1 h2 h3
    simp [byteAt] at h2
  | cons b rest ih =>
    intro tok pos e h1 h2 h3
    rw [scanFrom]
    by_cases hpe : pos = e
    · subst hpe
      rw [Nat.sub_self] at h2
      rw [if_pos (Option.some.inj h2)]
    · have hb : ¬ (b = tok) := by
        intro hc
        exact h3 0 (by omega) (by rw [hc]; rfl)
      rw [if_neg hb]
      apply ih tok (pos + 1) e (by omega)
      · rw [show e - (pos + 1) = e - pos - 1 from by omega]
        rw [show e - pos = (e - pos - 1) + 1 from by omega] at h2
        exact h2
      · intro r hr
        exact h3 (r + 1) (by omega)

/-- `scanFor` inversion on absolute indices. -/
theorem scanFor_inv (enc : List Nat) (tok i e : Nat)
    (h : scanFor enc tok i = e) (h0 : e ≠ 0) :
    i ≤ e ∧ byteAt enc e = some tok ∧
      ∀ p, i ≤ p → p < e → byteAt enc p ≠ some tok := by
  rw [scanFor] at h
  obtain ⟨h1, h2, h3⟩ := scanFrom_inv (enc.drop i) tok i e h h0
  rw [byteAt_drop, show i + (e - i) = e from by omega] at h2
  refine ⟨h1, h2, ?_⟩
  intro p hp1 hp2
  have := h3 (p - i) (by omega)
  rw [byteAt_drop, show i + (p - i) = p from by omega] at this
  exact this

/-- `scanFor` construction on absolute indices. -/
theorem scanFor_found (enc : List Nat) (tok i e : Nat) (h1 : i ≤ e)
    (h2 : byteAt enc e = some tok)
    (h3 : ∀ p, i ≤ p → p < e → byteAt enc p ≠ some tok) :
    scanFor enc tok i = e := by
  rw [scanFor]
  apply scanFrom_found (enc.drop i) tok i e h1
  · rw [byteAt_drop, show i + (e - i) = e from by omega]
    exact h2
  · intro r hr
    rw [byteAt_drop]
    exact h3 (i + r) (by omega) (by omega)

/-- A successful (nonzero) scan is unchanged by appending bytes: the hit and
everything before it lie inside `enc`. -/
theorem scanFor_append (enc ext : List Nat) (tok i e : Nat)
    (h : scanFor enc tok i = e) (h0 : e ≠ 0) :
    scanFor (enc ++ ext) tok i = e := by
  obtain ⟨h1, h2, h3⟩ := scanFor_inv enc tok i e h h0
  have he := byteAt_some_lt h2
  apply scanFor_found (enc ++ ext) tok i e h1
  · rw [byteAt_append_left enc ext e he]
    exact h2
  · intro p hp1 hp2
    rw [byteAt_append_left enc ext p (by omega)]
    exact h3 p hp1 hp2

/-- A slice whose upper bound lies inside `enc` is unchanged by appending
bytes. -/
theorem pySlice_append (enc ext : List Nat) (a b : Nat) (h : b ≤ enc.length) :
    pySlice (enc ++ ext) a b = pySlice enc a b := by
  rw [pySlice, pySlice]
  by_cases hab : a ≤ b
  · rw [List.drop_append_of_le_length (by omega)]
    rw [List.take_append_of_le_length (by simp; omega)]
  · rw [show b - a = 0 from by omega]
    simp

/-- A successful `decodeNext` read its dispatch byte, so the start index is
inside the buffer. -/
theorem decodeNext_ok_lt {enc : List Nat} {fuel i : Nat} {r : Value × Nat}
    (h : decodeNext enc fuel i = .ok r) : i < enc.length := by
  cases fuel with
  | zero => simp [decodeNext] at h
  | succ f =>
    rw [decodeNext] at h
    cases hb : byteAt enc i with
    | none =>
      rw [hb] at h
      exact absurd h (by simp)
    | some b => exact byteAt_some_lt hb

/-- A successful `decodeInt` run reads only bytes of `enc`, so it survives
appending arbitrary bytes. -/
theorem decodeInt_ext (enc ext : List Nat) (i : Nat) (n : Int) (j : Nat)
    (h : decodeInt enc i = .ok (n, j)) :
    decodeInt (enc ++ ext) i = .ok (n, j) := by
  rw [decodeInt] at h ⊢
  cases hb : byteAt enc i with
  | none =>
    rw [hb] at h
    exact absurd h (by simp)
  | some b =>
    have hlt := byteAt_some_lt hb
    have hb2 : byteAt (enc ++ ext) i = some b := by
      rw [byteAt_append_left enc ext i hlt]
      exact hb
    simp only [hb2]
    simp only [hb] at h
    by_cases h1 : b ≠ TOKEN_INT
    · rw [if_pos h1] at h
      exact absurd h (by simp)
    · rw [if_neg h1] at h ⊢
      by_cases h2 : scanFor enc TOKEN_END i = 0
      · rw [if_pos h2] at h
        exact absurd h (by simp)
      · rw [scanFor_append enc ext TOKEN_END i (scanFor enc TOKEN_END i) rfl h2]
        rw [if_neg h2] at h ⊢
        obtain ⟨hie, hbe, hclean⟩ := scanFor_inv enc TOKEN_END i _ rfl h2
        have helen := byteAt_some_lt hbe
        rw [pySlice_append enc ext (i + 1) (scanFor enc TOKEN_END i) (by omega)]
        exact h

/-- A successful `decodeStr` run whose result offset stays inside `enc`
(no silent payload truncation) survives appending arbitrary bytes. -/
theorem decodeStr_ext (enc ext : List Nat) (i : Nat) (s : List Nat) (j : Nat)
    (h : decodeStr enc i = .ok (s, j)) (hj : j ≤ enc.length) :
    decodeStr (enc ++ ext) i = .ok (s, j) := by
  rw [decodeStr] at h ⊢
  cases hb : byteAt enc i with
  | none =>
    rw [hb] at h
    exact absurd h (by simp)
  | some b =>
    have hlt := byteAt_some_lt hb
    have hb2 : byteAt (enc ++ ext) i = some b := by
      rw [byteAt_append_left enc ext i hlt]
      exact hb
    simp only [hb2]
    simp only [hb] at h
    by_cases h1 : ¬ isDigit b
    · rw [if_pos h1] at h
      exact absurd h (by simp)
    · rw [if_neg h1] at h ⊢
      by_cases h2 : scanFor enc TOKEN_STR_SPLIT i = 0
      · rw [if_pos h2] at h
        exact absurd h (by simp)
      · rw [scanFor_append enc ext TOKEN_STR_SPLIT i (scanFor enc TOKEN_STR_SPLIT i) rfl h2]
        rw [if_neg h2] at h ⊢
        obtain ⟨hie, hbe, hclean⟩ := scanFor_inv enc TOKEN_STR_SPLIT i _ rfl h2
        have helen := byteAt_some_lt hbe
        rw [pySlice_append enc ext i (scanFor enc TOKEN_STR_SPLIT i) (by omega)]
        cases hL : pyLen (pySlice enc i (scanFor enc TOKEN_STR_SPLIT i)) with
        | none =>
          rw [hL] at h
          exact absurd h (by simp)
        | some L =>
          simp only [hL] at h ⊢
          have hjeq : scanFor enc TOKEN_STR_SPLIT i + L + 1 = j := by
            have := congrArg (fun r : Except DecodeError (List Nat × Nat) =>
              match r with | .ok p => p.2 | .error _ => 0) h
            simpa using this
          rw [pySlice_append enc ext (scanFor enc TOKEN_STR_SPLIT i + 1)
            (scanFor enc TOKEN_STR_SPLIT i + L + 1) (by omega)]
          exact h

/-- Extension and fuel monotonicity combined: a successful decoder run on
`enc` whose result offset stays inside `enc` is reproduced verbatim on
`enc ++ ext`, with any fuel at least as large.  (All reads of a successful
run lie inside `enc`; the end-of-buffer checks only become laxer on the
longer buffer.) -/
theorem decode_ext_mono (enc ext : List Nat) : ∀ fuel : Nat,
    (∀ fuel' i v j, fuel ≤ fuel' → decodeNext enc fuel i = .ok (v, j) →
      j ≤ enc.length → decodeNext (enc ++ ext) fuel' i = .ok (v, j)) ∧
    (∀ fuel' i v j, fuel ≤ fuel' → decodeList enc fuel i = .ok (v, j) →
      j ≤ enc.length → decodeList (enc ++ ext) fuel' i = .ok (v, j)) ∧
    (∀ fuel' i v j, fuel ≤ fuel' → decodeDict enc fuel i = .ok (v, j) →
      j ≤ enc.length → decodeDict (enc ++ ext) fuel' i = .ok (v, j)) ∧
    (∀ fuel' ci acc v j, fuel ≤ fuel' → listLoop enc fuel ci acc = .ok (v, j) →
      j ≤ enc.length → listLoop (enc ++ ext) fuel' ci acc = .ok (v, j)) ∧
    (∀ fuel' ci acc v j, fuel ≤ fuel' → dictLoop enc fuel ci acc = .ok (v, j) →
      j ≤ enc.length → dictLoop (enc ++ ext) fuel' ci acc = .ok (v, j)) := by
  intro fuel
  induction fuel with
  | zero =>
    refine ⟨?_, ?_, ?_, ?_, ?_⟩
    · intro fuel' i v j _ h _
      simp [decodeNext] at h
    · intro fuel' i v j _ h _
      simp [decodeList] at h
    · intro fuel' i v j _ h _
      simp [decodeDict] at h
    · intro fuel' ci acc v j _ h _
      simp [listLoop] at h
    · intro fuel' ci acc v j _ h _
      simp [dictLoop] at h
  | succ fuel IH =>
    obtain ⟨IHnext, IHlist, IHdict, IHlloop, IHdloop⟩ := IH
    refine ⟨?_, ?_, ?_, ?_, ?_⟩
    · intro fuel' i v j hle h hj
      obtain ⟨f', rfl⟩ : ∃ f', fuel' = f' + 1 := ⟨fuel' - 1, by omega⟩
      have hf : fuel ≤ f' := by omega
      simp only [decodeNext] at h ⊢
      cases hb : byteAt enc i with
      | none =>
        rw [hb] at h
        exact absurd h (by simp)
      | some b =>
        have hlt := byteAt_some_lt hb
        have hb2 : byteAt (enc ++ ext) i = some b := by
          rw [byteAt_append_left enc ext i hlt]
          exact hb
        simp only [hb2]
        simp only [hb] at h
        by_cases h1 : b = TOKEN_INT
        · rw [if_pos h1] at h ⊢
          cases hi : decodeInt enc i with
          | error e =>
            rw [hi] at h
            exact absurd h (by simp)
          | ok r =>
            obtain ⟨n, j2⟩ := r
            simp only [hi] at h
            simp only [decodeInt_ext enc ext i n j2 hi]
            exact h
        · rw [if_neg h1] at h ⊢
          by_cases h2 : b = TOKEN_LIST
          · rw [if_pos h2] at h ⊢
            exact IHlist f' i v j hf h hj
          · rw [if_neg h2] at h ⊢
            by_cases h3 : b = TOKEN_DICT
            · rw [if_pos h3] at h ⊢
              exact IHdict f' i v j hf h hj
            · rw [if_neg h3] at h ⊢
              cases hs : decodeStr enc i with
              | error e =>
                rw [hs] at h
                exact absurd h (by simp)
              | ok r =>
                obtain ⟨s, j2⟩ := r
                simp only [hs] at h
                have hj2 : j2 = j := by
                  have := congrArg (fun r : Except DecodeError (Value × Nat) =>
                    match r with | .ok p => p.2 | .error _ => 0) h
                  simpa using this
                simp only [decodeStr_ext enc ext i s j2 hs (by omega)]
                exact h
    · intro fuel' i v j hle h hj
      obtain ⟨f', rfl⟩ : ∃ f', fuel' = f' + 1 := ⟨fuel' - 1, by omega⟩
      have hf : fuel ≤ f' := by omega
      simp only [decodeList] at h ⊢
      cases hb : byteAt enc i with
      | none =>
        rw [hb] at h
        exact absurd h (by simp)
      | some b =>
        have hlt := byteAt_some_lt hb
        have hb2 : byteAt (enc ++ ext) i = some b := by
          rw [byteAt_append_left enc ext i hlt]
          exact hb
        simp only [hb2]
        simp only [hb] at h
        by_cases h1 : b = TOKEN_LIST
        · rw [if_pos h1] at h ⊢
          exact IHlloop f' (i + 1) [] v j hf h hj
        · rw [if_neg h1] at h
          exact absurd h (by simp)
    · intro fuel' i v j hle h hj
      obtain ⟨f', rfl⟩ : ∃ f', fuel' = f' + 1 := ⟨fuel' - 1, by omega⟩
      have hf : fuel ≤ f' := by omega
      simp only [decodeDict] at h ⊢
      exact IHdloop f' (i + 1) [] v j hf h hj
    · intro fuel' ci acc v j hle h hj
      obtain ⟨f', rfl⟩ : ∃ f', fuel' = f' + 1 := ⟨fuel' - 1, by omega⟩
      have hf : fuel ≤ f' := by omega
      simp only [listLoop] at h ⊢
      cases hb : byteAt enc ci with
      | none =>
        rw [hb] at h
        exact absurd h (by simp)
      | some b =>
        have hlt := byteAt_some_lt hb
        have hb2 : byteAt (enc ++ ext) ci = some b := by
          rw [byteAt_append_left enc ext ci hlt]
          exact hb
        simp only [hb2]
        simp only [hb] at h
        by_cases h1 : b = TOKEN_END
        · rw [if_pos h1] at h ⊢
          exact h
        · rw [if_neg h1] at h ⊢
          cases hd : decodeNext enc fuel ci with
          | error e =>
            rw [hd] at h
            exact absurd h (by simp)
          | ok r =>
            obtain ⟨w, ci2⟩ := r
            simp only [hd] at h
            by_cases hlen : enc.length ≤ ci2
            · rw [if_pos hlen] at h
              exact absurd h (by simp)
            · rw [if_neg hlen] at h
              have hd2 := IHnext f' ci w ci2 hf hd (by omega)
              simp only [hd2]
              rw [if_neg (show ¬ ((enc ++ ext).length ≤ ci2) by
                simp only [List.length_append]; omega)]
              exact IHlloop f' ci2 (acc ++ [w]) v j hf h hj
    · intro fuel' ci acc v j hle h hj
      obtain ⟨f', rfl⟩ : ∃ f', fuel' = f' + 1 := ⟨fuel' - 1, by omega⟩
      have hf : fuel ≤ f' := by omega
      simp only [dictLoop] at h ⊢
      cases hb : byteAt enc ci with
      | none =>
        rw [hb] at h
        exact absurd h (by simp)
      | some b =>
        have hlt := byteAt_some_lt hb
        have hb2 : byteAt (enc ++ ext) ci = some b := by
          rw [byteAt_append_left enc ext ci hlt]
          exact hb
        simp only [hb2]
        simp only [hb] at h
        by_cases h1 : b = TOKEN_END
        · rw [if_pos h1] at h ⊢
          exact h
        · rw [if_neg h1] at h ⊢
          cases hk : decodeStr enc ci with
          | error e =>
            rw [hk] at h
            exact absurd h (by simp)
          | ok r =>
            obtain ⟨key, ci1⟩ := r
            simp only [hk] at h
            cases hd : decodeNext enc fuel ci1 with
            | error e =>
              rw [hd] at h
              exact absurd h (by simp)
            | ok r2 =>
              obtain ⟨w, ci2⟩ := r2
              simp only [hd] at h
              by_cases hlen : enc.length ≤ ci2
              · rw [if_pos hlen] at h
                exact absurd h (by simp)
              · rw [if_neg hlen] at h
                have hci1 : ci1 < enc.length := decodeNext_ok_lt hd
                simp only [decodeStr_ext enc ext ci key ci1 hk (by omega)]
                have hd2 := IHnext f' ci1 w ci2 hf hd (by omega)
                simp only [hd2]
                rw [if_neg (show ¬ ((enc ++ ext).length ≤ ci2) by
                  simp only [List.length_append]; omega)]
                exact IHdloop f' ci2 (dictInsert acc key w) v j hf h hj

/-- Prefix safety: `decode` never succeeds on a strict prefix of a buffer it
accepts.  A successful prefix run would stay inside the prefix, so it would
replay verbatim on the full buffer (with ample fuel) and stop early there —
contradicting the accepted full run, which consumes every byte. -/
theorem decode_prefix_ne_ok (full : List Nat) (v : Value) (m : Nat)
    (hfull : decode full = .ok v) (hm : m < full.length) (w : Value) :
    decode (full.take m) ≠ .ok w := by
  intro hpre
  rw [decode] at hfull hpre
  cases h1 : decodeNext full (3 * full.length + 1) 0 with
  | error e =>
    rw [h1] at hfull
    exact absurd hfull (by simp)
  | ok r =>
    obtain ⟨v1, n1⟩ := r
    simp only [h1] at hfull
    have hn1 : n1 = full.length := by
      by_contra hc
      rw [if_neg hc] at hfull
      exact absurd hfull (by simp)
    cases h2 : decodeNext (full.take m) (3 * (full.take m).length + 1) 0 with
    | error e =>
      rw [h2] at hpre
      exact absurd hpre (by simp)
    | ok r2 =>
      obtain ⟨w1, m1⟩ := r2
      simp only [h2] at hpre
      have hm1 : m1 = (full.take m).length := by
        by_contra hc
        rw [if_neg hc] at hpre
        exact absurd hpre (by simp)
      have hmlen : (full.take m).length = m := by
        rw [List.length_take]
        omega
      have hm1' : m1 = m := by rw [hm1, hmlen]
      have hext := (decode_ext_mono (full.take m) (full.drop m)
        (3 * (full.take m).length + 1)).1 (3 * full.length + 1) 0 w1 m1
        (by rw [hmlen]; omega) h2 (le_of_eq hm1)
      rw [List.take_append_drop] at hext
      rw [h1] at hext
      have heq : n1 = m1 := by
        have := congrArg (fun r : Except DecodeError (Value × Nat) =>
          match r with | .ok p => p.2 | .error _ => 0) hext
        simpa using this
      omega

/- ------------------------------------------------------------------
CLAIMS
------------------------------------------------------------------ -/

/-- C1 (counterexample): for `b"10:hello"` — a string claiming length 10
with only 5 payload bytes — `decode` does fail, but with the very same
`Trailing data after valid bencode` error that a genuinely-trailing buffer
like `b"i0ex"` produces; there is no distinct, specific truncated-string
error anywhere in the decoder. -/
theorem C1_counterexample :
    decode (bs "10:hello") = .error .trailingData ∧
    decode (bs "i0ex") = .error .trailingData :=
  ⟨rfl, rfl⟩

/-- C1 (amended): for every top-level buffer consisting of a decimal length
prefix `L`, the `:` separator and fewer than `L` payload bytes, `decode`
fails — it never returns a silently truncated ByteString — but the failure
is the generic trailing-data error (`decodeStr` itself silently truncates
the slice and reports an out-of-buffer next index, which the top-level
consumed-length check then rejects), not a truncated-string-specific
error. -/
theorem C1_theorem (L : Nat) (payload : List Nat) (h : payload.length < L) :
    decode (natStr L ++ TOKEN_STR_SPLIT :: payload) = .error .trailingData :=
  decode_truncated_str L payload h

/-- C1 witness: the amended theorem at `b"10:hello"`. -/
theorem C1_witness :
    (bs "hello").length < 10 ∧
    decode (natStr 10 ++ TOKEN_STR_SPLIT :: bs "hello") = .error .trailingData :=
  ⟨by decide, C1_theorem 10 (bs "hello") (by decide)⟩

/-- C2: every well-formed canonical buffer — the encoding of a value tree
whose dict levels are strictly sorted by key (`CanonicalBuffer`) — decodes
successfully, and re-encoding the result reproduces the buffer
byte-for-byte. -/
theorem C2_theorem (b : List Nat) (h : CanonicalBuffer b) :
    ∃ v, decode b = .ok v ∧ encode v = b := by
  obtain ⟨v, hc, rfl⟩ := h
  have hwf := canonicalV_wf (vsize v) v (le_refl _) hc
  refine ⟨canon v, decode_encode v hwf, ?_⟩
  rw [canon_id (vsize v) v (le_refl _) hc]

/-- C2 witness: the canonical buffer `b"d3:fooi42e4:spam4:eggse"`. -/
theorem C2_witness :
    CanonicalBuffer (bs "d3:fooi42e4:spam4:eggse") ∧
    ∃ v, decode (bs "d3:fooi42e4:spam4:eggse") = .ok v ∧
      encode v = bs "d3:fooi42e4:spam4:eggse" :=
  ⟨⟨.dict [(bs "foo", .int 42), (bs "spam", .str (bs "eggs"))], by decide, by decide⟩,
   C2_theorem _
     ⟨.dict [(bs "foo", .int 42), (bs "spam", .str (bs "eggs"))], by decide, by decide⟩⟩

/-- C3: for every well-formed value tree `v` (dict keys distinct at every
level, as in any tree built from Python dicts), `decode (encode v)`
succeeds, and the decoded tree is structurally equal to `v` with maps
compared as key-to-value mappings irrespective of entry order
(`VEquiv`). -/
theorem C3_theorem (v : Value) (hwf : wfV v = true) :
    ∃ w, decode (encode v) = .ok w ∧ VEquiv w v :=
  ⟨canon v, decode_encode v hwf, VEquiv_canon (vsize v) v (le_refl _) hwf⟩

/-- C3 witness: a dict built in non-sorted order round-trips to an
equivalent tree. -/
theorem C3_witness :
    wfV (.dict [(bs "b", .int 1), (bs "a", .int 2)]) = true ∧
    ∃ w, decode (encode (.dict [(bs "b", .int 1), (bs "a", .int 2)])) = .ok w ∧
      VEquiv w (.dict [(bs "b", .int 1), (bs "a", .int 2)]) :=
  ⟨by decide, C3_theorem _ (by decide)⟩

/-- C4: `encode` emits a dict's key/value pairs in strictly ascending
byte-wise key order whenever the keys are distinct, regardless of the order
the map was populated in — the pair list actually concatenated by the dict
branch is `sortPairs (encodePairs d)` — and the spec's construction-order
example produces exactly the expected bytes. -/
theorem C4_theorem :
    (∀ d : List (List Nat × Value), (d.map Prod.fst).Nodup →
      List.Pairwise (fun p q => lexLt p.1 q.1 = true) (sortPairs (encodePairs d))) ∧
    encode (.dict [(bs "spam", .str (bs "eggs")),
        (bs "names", .list [.str (bs "Alan"), .str (bs "Bob"), .str (bs "Joe")]),
        (bs "magic number", .int 42)])
      = bs "d12:magic numberi42e5:namesl4:Alan3:Bob3:Joee4:spam4:eggse" := by
  constructor
  · intro d hn
    refine sorted_strict_of_nodup _ (sortPairs_sorted _) ?_
    rw [((sortPairs_perm (encodePairs d)).map Prod.fst).nodup_iff, map_fst_encodePairs]
    exact hn
  · decide

/-- C4 witness: the sortedness statement at the spec's example dict. -/
theorem C4_witness :
    (([(bs "spam", Value.str (bs "eggs")),
       (bs "names", Value.list [.str (bs "Alan"), .str (bs "Bob"), .str (bs "Joe")]),
       (bs "magic number", Value.int 42)].map Prod.fst).Nodup) ∧
    List.Pairwise (fun p q => lexLt p.1 q.1 = true)
      (sortPairs (encodePairs [(bs "spam", .str (bs "eggs")),
        (bs "names", .list [.str (bs "Alan"), .str (bs "Bob"), .str (bs "Joe")]),
        (bs "magic number", .int 42)])) :=
  ⟨by decide, C4_theorem.1 _ (by decide)⟩

/-- C5 (counterexample): the buffer `b"l"` ends before any closing `e`, and
`decode` fails with an `IndexError` — the `while encoded[current_index]`
loop condition reads out of bounds — not with a format error. -/
theorem C5_counterexample : decode (bs "l") = .error .indexError :=
  rfl

/-- C5 (amended): on every buffer that ends before the closing `e` of a
list or map — formalised as any strict prefix of a buffer that `decode`
accepts with a list or map at top level; the closing `e` is the accepted
buffer's final consumed byte, so every strict prefix stops before it —
`decode` always fails, never returning a value
(`decode_prefix_ne_ok`: a successful prefix run would stay inside the
prefix, replay verbatim on the full buffer, and stop early there,
contradicting the accepted full run).  But the failure kind depends on
where the bytes run out: `b"l"` and `b"d"` die on the out-of-bounds
loop-condition read (Python `IndexError`), while `b"d3:fooi1e"` and
`b"li1e"` hit the explicit `Missing end token` check. -/
theorem C5_theorem :
    (∀ (full : List Nat) (v : Value) (m : Nat) (w : Value),
      (byteAt full 0 = some TOKEN_LIST ∨ byteAt full 0 = some TOKEN_DICT) →
      decode full = .ok v → m < full.length →
      decode (full.take m) ≠ .ok w) ∧
    decode (bs "l") = .error .indexError ∧
    decode (bs "d") = .error .indexError ∧
    decode (bs "d3:fooi1e") = .error .missingEnd ∧
    decode (bs "li1e") = .error .missingEnd :=
  ⟨fun full v m w _ hfull hm => decode_prefix_ne_ok full v m hfull hm w,
   rfl, rfl, rfl, rfl⟩

/-- C5 witness: the universal part at the accepted list buffer `b"le"`
truncated to its strict prefix `b"l"`. -/
theorem C5_witness :
    (byteAt (bs "le") 0 = some TOKEN_LIST ∨ byteAt (bs "le") 0 = some TOKEN_DICT) ∧
    decode (bs "le") = .ok (.list []) ∧ 1 < (bs "le").length ∧
    decode ((bs "le").take 1) ≠ .ok (.list []) :=
  ⟨Or.inl rfl, rfl, by decide,
   C5_theorem.1 (bs "le") (.list []) 1 (.list []) (Or.inl rfl) rfl (by decide)⟩

/-- C6: two in-memory dicts with distinct keys that are equal as
key-to-value mappings — however they were populated — encode to identical
byte sequences, so any digest over the encoding is stable. -/
theorem C6_theorem (d₁ d₂ : List (List Nat × Value))
    (hn₁ : (d₁.map Prod.fst).Nodup) (hn₂ : (d₂.map Prod.fst).Nodup)
    (hmap : ∀ k, dlookup k d₁ = dlookup k d₂) :
    encode (.dict d₁) = encode (.dict d₂) :=
  encode_dict_ext hn₁ hn₂ hmap

/-- C6 witness: the same two-entry map populated in opposite orders. -/
theorem C6_witness :
    (([(bs "a", Value.int 1), (bs "b", Value.int 2)].map Prod.fst).Nodup) ∧
    (([(bs "b", Value.int 2), (bs "a", Value.int 1)].map Prod.fst).Nodup) ∧
    (∀ k, dlookup k [(bs "a", Value.int 1), (bs "b", Value.int 2)]
       = dlookup k [(bs "b", Value.int 2), (bs "a", Value.int 1)]) ∧
    encode (.dict [(bs "a", .int 1), (bs "b", .int 2)])
      = encode (.dict [(bs "b", .int 2), (bs "a", .int 1)]) := by
  have hmap : ∀ k, dlookup k [(bs "a", Value.int 1), (bs "b", Value.int 2)]
      = dlookup k [(bs "b", Value.int 2), (bs "a", Value.int 1)] := by
    intro k
    by_cases h1 : bs "a" = k
    · subst h1
      rfl
    · by_cases h2 : bs "b" = k
      · subst h2
        rfl
      · have hL : dlookup k [(bs "a", Value.int 1), (bs "b", Value.int 2)] = none := by
          rw [dlookup, if_neg h1, dlookup, if_neg h2]
          rfl
        have hR : dlookup k [(bs "b", Value.int 2), (bs "a", Value.int 1)] = none := by
          rw [dlookup, if_neg h2, dlookup, if_neg h1]
          rfl
        rw [hL, hR]
  exact ⟨by decide, by decide, hmap, C6_theorem _ _ (by decide) (by decide) hmap⟩

/-- C7: `b"i03e"` is rejected as a leading zero, `b"i-0e"` as negative
zero, and `b"i0e"` decodes to the integer 0. -/
theorem C7_theorem :
    decode (bs "i03e") = .error .leadingZero ∧
    decode (bs "i-0e") = .error .negativeZero ∧
    decode (bs "i0e") = .ok (.int 0) :=
  ⟨rfl, rfl, rfl⟩

/-- C8: with `self.info` a dict (the shape `load` establishes),
`get_file_info` errors iff at least one of `b"name"`, `b"length"`,
`b"piece length"`, `b"pieces"` is absent, and otherwise returns exactly
those four looked-up fields. -/
theorem C8_theorem (info : List (List Nat × Value)) :
    ((∃ e, TorrentFile.get_file_info info = .error e) ↔
      (dlookup (bs "name") info = none ∨ dlookup (bs "length") info = none ∨
       dlookup (bs "piece length") info = none ∨ dlookup (bs "pieces") info = none)) ∧
    (∀ n l pl p, dlookup (bs "name") info = some n →
      dlookup (bs "length") info = some l →
      dlookup (bs "piece length") info = some pl →
      dlookup (bs "pieces") info = some p →
      TorrentFile.get_file_info info = .ok ⟨n, l, pl, p⟩) := by
  constructor
  · cases h1 : dlookup (bs "name") info <;>
      cases h2 : dlookup (bs "length") info <;>
        cases h3 : dlookup (bs "piece length") info <;>
          cases h4 : dlookup (bs "pieces") info <;>
            simp [TorrentFile.get_file_info, h1, h2, h3, h4]
  · intro n l pl p h1 h2 h3 h4
    simp [TorrentFile.get_file_info, h1, h2, h3, h4]

/-- C8 witness: a complete info dict returns its four fields; the theorem
applied at that dict. -/
theorem C8_witness :
    dlookup (bs "name") [(bs "name", Value.str (bs "x")), (bs "length", Value.int 5),
        (bs "piece length", Value.int 2), (bs "pieces", Value.str (bs "h"))]
      = some (.str (bs "x")) ∧
    TorrentFile.get_file_info [(bs "name", Value.str (bs "x")), (bs "length", Value.int 5),
        (bs "piece length", Value.int 2), (bs "pieces", Value.str (bs "h"))]
      = .ok ⟨.str (bs "x"), .int 5, .int 2, .str (bs "h")⟩ :=
  ⟨rfl, (C8_theorem _).2 _ _ _ _ rfl rfl rfl rfl⟩

/-- C9: a map buffer holding the same key twice decodes successfully with
the value of the last occurrence (`b"d1:ai1e1:ai2ee"` maps `a` to 2), and
the dict update `output[key] = value` is last-write-wins in general: it
binds the inserted key to the new value and leaves every other key
unchanged. -/
theorem C9_theorem :
    decode (bs "d1:ai1e1:ai2ee") = .ok (.dict [(bs "a", .int 2)]) ∧
    (∀ d k v, dlookup k (dictInsert d k v) = some v) ∧
    (∀ d k v k2, k2 ≠ k → dlookup k2 (dictInsert d k v) = dlookup k2 d) :=
  ⟨rfl, dlookup_dictInsert_self, dlookup_dictInsert_other⟩

/-- C9 witness: the other-key clause of the theorem at concrete keys. -/
theorem C9_witness :
    bs "b" ≠ bs "a" ∧
    dlookup (bs "b") (dictInsert [(bs "b", Value.int 7)] (bs "a") (.int 1))
      = dlookup (bs "b") [(bs "b", Value.int 7)] :=
  ⟨by decide, C9_theorem.2.2 [(bs "b", .int 7)] (bs "a") (.int 1) (bs "b") (by decide)⟩

/-- C10: a byte string length prefix with a leading zero is accepted —
prepending `0` to any minimal length prefix still decodes to the same
string — for example `b"05:hello"` decodes to `b"hello"`, even though
re-encoding that string yields the different bytes `b"5:hello"`. -/
theorem C10_theorem :
    (∀ s : List Nat, decode (48 :: natStr s.length ++ TOKEN_STR_SPLIT :: s)
      = .ok (.str s)) ∧
    decode (bs "05:hello") = .ok (.str (bs "hello")) ∧
    encode (.str (bs "hello")) = bs "5:hello" :=
  ⟨decode_zero_padded_len, rfl, rfl⟩
